import Mathlib

/-
Verification of the Atomize task-management core against its specification.

The development shallowly embeds the TypeScript sources:
  - `src/atomize/src/lib/types.ts`            (task data model, serialization)
  - `src/atomize/src/lib/store/task-store.ts` (TaskStore)
  - the priority engine      (`PriorityEngine`,   `priority-engine` module)
  - the atomization engine   (`AtomizationEngine`, `atomization-engine` module)
  - `src/atomize/src/lib/managers/progress-manager.ts` (streaks)

Conventions of the embedding:
  - A JavaScript `Date` is its epoch-millisecond value, an `Int`
    (valid dates only; invalid dates do not arise in the modelled flows).
  - JavaScript number arithmetic on these code paths stays within the
    exactly-representable integer/rational range, so it is modelled with
    `Int` and `ℚ`; `Math.round`/`Math.floor`/`Math.ceil` become exact
    rational rounding.
  - `Map` is an insertion-ordered association list.
  - Fallible operations (`throw`) return `Except`.
-/

namespace Atomize

/-! ### JavaScript numeric primitives -/

/-- JavaScript `Math.round`: round half toward positive infinity. -/
def jsRound (q : ℚ) : Int := ⌊q + 1 / 2⌋

/-- JavaScript `Math.ceil` on an exact rational. -/
def jsCeil (q : ℚ) : Int := ⌈q⌉

/-! ### Calendar arithmetic backing `Date.prototype.toISOString`

`toISOString` renders the UTC proleptic-Gregorian fields of an instant
(ECMA-262 `YearFromTime`/`MonthFromTime`/`DateFromTime`).  We compute the
civil date from the epoch-day number with Hinnant's era-based algorithm,
and the inverse (used by `new Date(isoString)`) with its standard inverse.
All divisions are mathematical floor divisions (`Int./` is Euclidean
division, which agrees with floor division for positive divisors). -/

/-- Epoch-day number to proleptic-Gregorian (year, month, day). -/
def civilFromDays (days : Int) : Int × Int × Int :=
  let z := days + 719468
  let era := z / 146097
  let doe := z - era * 146097
  let yoe := (doe - doe / 1460 + doe / 36524 - doe / 146096) / 365
  let y := yoe + era * 400
  let doy := doe - (365 * yoe + yoe / 4 - yoe / 100)
  let mp := (5 * doy + 2) / 153
  let d := doy - (153 * mp + 2) / 5 + 1
  let m := if mp < 10 then mp + 3 else mp - 9
  (if m ≤ 2 then y + 1 else y, m, d)

/-- Proleptic-Gregorian (year, month, day) to epoch-day number. -/
def daysFromCivil (y m d : Int) : Int :=
  let y' := if m ≤ 2 then y - 1 else y
  let era := y' / 400
  let yoe := y' - era * 400
  let doy := (153 * (if m > 2 then m - 3 else m + 9) + 2) / 5 + d - 1
  let doe := yoe * 365 + yoe / 4 - yoe / 100 + doy
  era * 146097 + doe - 719468

/-- The numeric fields of an ISO-8601 timestamp string as produced by
`toISOString` (`YYYY-MM-DDTHH:mm:ss.sssZ`, expanded years included).
Decimal rendering of these fields is injective, so the string is
identified with its fields. -/
structure DateFields where
  year : Int
  month : Int
  day : Int
  hour : Int
  minute : Int
  second : Int
  millisecond : Int
deriving DecidableEq

/-- `Date.prototype.toISOString`: the UTC fields of an instant. -/
def toISOFields (t : Int) : DateFields :=
  let days := t / 86400000
  let msod := t % 86400000
  let ymd := civilFromDays days
  { year := ymd.1
    month := ymd.2.1
    day := ymd.2.2
    hour := msod / 3600000
    minute := msod % 3600000 / 60000
    second := msod % 60000 / 1000
    millisecond := msod % 1000 }

/-- `new Date(isoString)`: recover the instant from its ISO fields
(ECMA-262 Date Time String Format parsing, `MakeDay`/`MakeTime`). -/
def ofISOFields (f : DateFields) : Int :=
  daysFromCivil f.year f.month f.day * 86400000 +
    f.hour * 3600000 + f.minute * 60000 + f.second * 1000 + f.millisecond

/-! #### Exhaustive check used by the year-of-era correctness proof -/

/-- `Nat` version of Hinnant's year-of-era formula. -/
def yoeN (n : Nat) : Nat :=
  (n + n / 36524 - n / 1460 - n / 146096) / 365

/-- Days in the era strictly before year-of-era `y`. -/
def dupN (y : Nat) : Nat :=
  365 * y + y / 4 - y / 100

/-- Boundary check for one year-of-era: the formula answers `y` on the
first and the last day of year `y`. -/
def bdryOk (y : Nat) : Bool :=
  decide (yoeN (dupN y) = y) && decide (yoeN (dupN (y + 1) - 1) = y)

/-- Check `bdryOk` on `[lo, hi)` by binary splitting; the fuel keeps the
kernel recursion shallow. -/
def bdryOkRange (fuel lo hi : Nat) : Bool :=
  match fuel with
  | 0 => false
  | f + 1 =>
    if hi ≤ lo then true
    else if hi = lo + 1 then bdryOk lo
    else
      let mid := (lo + hi) / 2
      bdryOkRange f lo mid && bdryOkRange f mid hi

/-! ### Data model (`types.ts`) -/

inductive PriorityLevel where
  | high | medium | low
deriving DecidableEq

inductive TaskStatus where
  | pending | in_progress | completed | deferred | archived
deriving DecidableEq

inductive HistoryAction where
  | created | updated | completed | deferred | rescheduled
deriving DecidableEq

/-- Payload carried by a history entry's `previousValue`/`newValue`
(`unknown` in the source; only these shapes occur). -/
inductive HistoryValue where
  | vNone
  | vStr (s : String)
  | vStrs (l : List String)
  | vInt (n : Int)
  | vDate (t : Int)
  | vPrio (p : PriorityLevel)
  | vStatus (st : TaskStatus)
deriving DecidableEq

structure TaskHistoryEntry where
  timestamp : Int
  action : HistoryAction
  details : String
  previousValue : HistoryValue
  newValue : HistoryValue
deriving DecidableEq

structure TaskContext where
  originalGoal : Option String
  parentContext : Option String
  notes : List String
  relatedTaskIds : List String
deriving DecidableEq

structure Task where
  id : String
  createdAt : Int
  updatedAt : Int
  title : String
  description : Option String
  rawInput : String
  parentId : Option String
  childIds : List String
  deadline : Option Int
  scheduledDate : Option Int
  estimatedMinutes : Option Int
  priority : PriorityLevel
  priorityReason : String
  status : TaskStatus
  context : TaskContext
  history : List TaskHistoryEntry
deriving DecidableEq

structure TaskInput where
  rawInput : String
  title : Option String
  description : Option String
  parentId : Option String
  deadline : Option Int
  scheduledDate : Option Int
  estimatedMinutes : Option Int
  priority : Option PriorityLevel
deriving DecidableEq

structure TaskUpdate where
  title : Option String
  description : Option String
  deadline : Option Int
  priority : Option PriorityLevel
  priorityReason : Option String
  scheduledDate : Option Int
  estimatedMinutes : Option Int
  status : Option TaskStatus
deriving DecidableEq

/-- An all-`none` update patch (`{}` object literal). -/
def TaskUpdate.empty : TaskUpdate :=
  ⟨none, none, none, none, none, none, none, none⟩

/-! ### Serialization (`serializeTask` / `deserializeTask`) -/

structure SerializedTaskHistoryEntry where
  timestamp : DateFields
  action : HistoryAction
  details : String
  previousValue : HistoryValue
  newValue : HistoryValue
deriving DecidableEq

structure SerializedTask where
  id : String
  createdAt : DateFields
  updatedAt : DateFields
  title : String
  description : Option String
  rawInput : String
  parentId : Option String
  childIds : List String
  deadline : Option DateFields
  scheduledDate : Option DateFields
  estimatedMinutes : Option Int
  priority : PriorityLevel
  priorityReason : String
  status : TaskStatus
  context : TaskContext
  history : List SerializedTaskHistoryEntry
deriving DecidableEq

/-- `serializeTask`: spread the task, converting every date to its
ISO-string fields. -/
def serializeTask (task : Task) : SerializedTask :=
  { id := task.id
    createdAt := toISOFields task.createdAt
    updatedAt := toISOFields task.updatedAt
    title := task.title
    description := task.description
    rawInput := task.rawInput
    parentId := task.parentId
    childIds := task.childIds
    deadline := task.deadline.map toISOFields
    scheduledDate := task.scheduledDate.map toISOFields
    estimatedMinutes := task.estimatedMinutes
    priority := task.priority
    priorityReason := task.priorityReason
    status := task.status
    context := task.context
    history := task.history.map fun h =>
      { timestamp := toISOFields h.timestamp
        action := h.action
        details := h.details
        previousValue := h.previousValue
        newValue := h.newValue } }

/-- `deserializeTask`: spread the record, parsing every date string. -/
def deserializeTask (data : SerializedTask) : Task :=
  { id := data.id
    createdAt := ofISOFields data.createdAt
    updatedAt := ofISOFields data.updatedAt
    title := data.title
    description := data.description
    rawInput := data.rawInput
    parentId := data.parentId
    childIds := data.childIds
    deadline := data.deadline.map ofISOFields
    scheduledDate := data.scheduledDate.map ofISOFields
    estimatedMinutes := data.estimatedMinutes
    priority := data.priority
    priorityReason := data.priorityReason
    status := data.status
    context := data.context
    history := data.history.map fun h =>
      { timestamp := ofISOFields h.timestamp
        action := h.action
        details := h.details
        previousValue := h.previousValue
        newValue := h.newValue } }


/-! ### ISO string rendering (used in history detail strings) -/

/-- Decimal rendering of a natural number padded to `width` digits. -/
def padNat (width : Nat) (n : Nat) : String :=
  let s := toString n
  if s.length < width then String.mk (List.replicate (width - s.length) '0') ++ s else s

/-- Decimal rendering of an integer padded to `width` digits. -/
def padInt (width : Nat) (n : Int) : String :=
  if n < 0 then "-" ++ padNat width (-n).toNat else padNat width n.toNat

/-- The exact text of `Date.prototype.toISOString`. -/
def isoStringOf (t : Int) : String :=
  let f := toISOFields t
  let yearStr :=
    if 0 ≤ f.year ∧ f.year ≤ 9999 then padInt 4 f.year
    else if f.year < 0 then "-" ++ padNat 6 (-f.year).toNat
    else "+" ++ padNat 6 f.year.toNat
  yearStr ++ "-" ++ padInt 2 f.month ++ "-" ++ padInt 2 f.day ++ "T" ++
    padInt 2 f.hour ++ ":" ++ padInt 2 f.minute ++ ":" ++ padInt 2 f.second ++ "." ++
    padInt 3 f.millisecond ++ "Z"

/-! ### Task store (`task-store.ts`)

The store's `Map<string, Task>` is an insertion-ordered association list.
`Map.set` replaces in place when the key exists and appends otherwise;
`Map.delete` removes the entry.  `crypto.randomUUID()` is modelled by
passing the generated id explicitly (well-formed executions supply a
fresh one), and `new Date()` by passing the current instant. -/

def Store := List (String × Task)

def mLookup : Store → String → Option Task
  | [], _ => none
  | (k, v) :: rest, key => if k = key then some v else mLookup rest key

def mSet : Store → String → Task → Store
  | [], key, task => [(key, task)]
  | (k, v) :: rest, key, task =>
    if k = key then (k, task) :: rest else (k, v) :: mSet rest key task

def mDelete : Store → String → Store
  | [], _ => []
  | (k, v) :: rest, key => if k = key then rest else (k, v) :: mDelete rest key

namespace TaskStore

/-- The freshly built task record of `TaskStore.create`. -/
def baseTaskOf (input : TaskInput) (now : Int) (id : String) : Task :=
  { id := id
    createdAt := now
    updatedAt := now
    title :=
      match input.title with
      | some t => if t ≠ "" then t else input.rawInput.take 100
      | none => input.rawInput.take 100
    description := input.description
    rawInput := input.rawInput
    parentId := input.parentId
    childIds := []
    deadline := input.deadline
    scheduledDate := input.scheduledDate
    estimatedMinutes := input.estimatedMinutes
    priority := input.priority.getD .medium
    priorityReason := if input.priority.isSome then "User specified" else "Default priority"
    status := .pending
    context := { originalGoal := none, parentContext := none, notes := [], relatedTaskIds := [] }
    history := [⟨now, .created, "Task created", .vNone, .vNone⟩] }

/-- The child task with the parent's context copied onto it. -/
def childTaskOf (input : TaskInput) (now : Int) (id : String) (parent : Task) : Task :=
  { baseTaskOf input now id with context :=
    { (baseTaskOf input now id).context with
      parentContext := some parent.title
      originalGoal := some parent.rawInput } }

/-- The parent after `create` registers a new child. -/
def parentWithChild (parent : Task) (id : String) (now : Int) : Task :=
  { parent with
    childIds := parent.childIds ++ [id]
    updatedAt := now
    history := parent.history ++
      [⟨now, .updated, "Added child task: " ++ id,
        .vStrs parent.childIds, .vStrs (parent.childIds ++ [id])⟩] }

/-- `TaskStore.create`.  Always succeeds; when the input carries a
`parentId` that resolves, the parent gains the child id and a history
entry, and the child's context copies the parent's title and raw input. -/
def create (s : Store) (input : TaskInput) (now : Int) (id : String) : Store × Task :=
  match input.parentId with
  | some pid =>
    match mLookup s pid with
    | some parent =>
      (mSet (mSet s pid (parentWithChild parent id now)) id (childTaskOf input now id parent),
        childTaskOf input now id parent)
    | none => (mSet s id (baseTaskOf input now id), baseTaskOf input now id)
  | none => (mSet s id (baseTaskOf input now id), baseTaskOf input now id)

/-- One `updated` history entry of the per-field diff loop. -/
def entryFor (now : Int) (name : String) (prev new : HistoryValue) : TaskHistoryEntry :=
  ⟨now, .updated, name ++ " changed", prev, new⟩

/-- Encode an optional string field value as a history payload. -/
def optStr : Option String → HistoryValue
  | none => .vNone
  | some s => .vStr s

/-- Encode an optional date field value as a history payload. -/
def optDate : Option Int → HistoryValue
  | none => .vNone
  | some t => .vDate t

/-- Encode an optional integer field value as a history payload. -/
def optInt : Option Int → HistoryValue
  | none => .vNone
  | some n => .vInt n

/-- The diff loop of `TaskStore.update`: one history entry per patch field
that is present and differs from the task's current value.  (Date fields
are compared as instants; the source compares object references, which
coincides except when the caller passes the stored `Date` object itself.) -/
def diffEntries (task : Task) (u : TaskUpdate) (now : Int) : List TaskHistoryEntry :=
  (match u.title with
   | some v => if v ≠ task.title
       then [entryFor now "title" (.vStr task.title) (.vStr v)] else []
   | none => []) ++
  (match u.description with
   | some v => if some v ≠ task.description
       then [entryFor now "description" (optStr task.description) (.vStr v)] else []
   | none => []) ++
  (match u.deadline with
   | some v => if some v ≠ task.deadline
       then [entryFor now "deadline" (optDate task.deadline) (.vDate v)] else []
   | none => []) ++
  (match u.priority with
   | some v => if v ≠ task.priority
       then [entryFor now "priority" (.vPrio task.priority) (.vPrio v)] else []
   | none => []) ++
  (match u.priorityReason with
   | some v => if v ≠ task.priorityReason
       then [entryFor now "priorityReason" (.vStr task.priorityReason) (.vStr v)] else []
   | none => []) ++
  (match u.scheduledDate with
   | some v => if some v ≠ task.scheduledDate
       then [entryFor now "scheduledDate" (optDate task.scheduledDate) (.vDate v)] else []
   | none => []) ++
  (match u.estimatedMinutes with
   | some v => if some v ≠ task.estimatedMinutes
       then [entryFor now "estimatedMinutes" (optInt task.estimatedMinutes) (.vInt v)] else []
   | none => []) ++
  (match u.status with
   | some v => if v ≠ task.status
       then [entryFor now "status" (.vStatus task.status) (.vStatus v)] else []
   | none => [])

/-- The `{...task, ...updates}` spread: present patch fields overwrite. -/
def applyUpdates (task : Task) (u : TaskUpdate) : Task :=
  { task with
    title := u.title.getD task.title
    description := match u.description with | some v => some v | none => task.description
    deadline := match u.deadline with | some v => some v | none => task.deadline
    priority := u.priority.getD task.priority
    priorityReason := u.priorityReason.getD task.priorityReason
    scheduledDate := match u.scheduledDate with | some v => some v | none => task.scheduledDate
    estimatedMinutes := match u.estimatedMinutes with | some v => some v | none => task.estimatedMinutes
    status := u.status.getD task.status }

/-- The `{...task, ...updates, updatedAt, history}` record `update` stores. -/
def updatedTaskOf (task : Task) (u : TaskUpdate) (now : Int) : Task :=
  { applyUpdates task u with
    updatedAt := now
    history := task.history ++ diffEntries task u now }

/-- `TaskStore.update`: rejected unless `explicit`; otherwise diffs each
changed field into history and overwrites the stored task. -/
def update (s : Store) (id : String) (u : TaskUpdate) (explicit : Bool) (now : Int) :
    Except String (Store × Task) :=
  if !explicit then .error "Task modifications require explicit user request"
  else
    match mLookup s id with
    | none => .error ("Task not found: " ++ id)
    | some task =>
      .ok (mSet s id (updatedTaskOf task u now), updatedTaskOf task u now)

/-- The record `complete` stores: `status → completed`, one appended entry. -/
def completedTaskOf (task : Task) (now : Int) : Task :=
  { task with
    status := .completed
    updatedAt := now
    history := task.history ++
      [⟨now, .completed, "Task marked as complete", .vStatus task.status, .vStatus .completed⟩] }

/-- `TaskStore.complete`. -/
def complete (s : Store) (id : String) (now : Int) : Except String (Store × Task) :=
  match mLookup s id with
  | none => .error ("Task not found: " ++ id)
  | some task =>
    .ok (mSet s id (completedTaskOf task now), completedTaskOf task now)

/-- `TaskStore.defer`.  `tomorrow9` is the locale-dependent "tomorrow at
09:00 local" instant the source computes from `now`; it is passed in
because the embedding is timezone-agnostic. -/
def deferredTaskOf (task : Task) (newDate : Option Int) (now tomorrow9 : Int) : Task :=
  { task with
    status := .deferred
    scheduledDate := some (newDate.getD tomorrow9)
    updatedAt := now
    history := task.history ++
      [⟨now, .deferred, "Task deferred to " ++ isoStringOf (newDate.getD tomorrow9),
        optStr (task.scheduledDate.map isoStringOf), .vStr (isoStringOf (newDate.getD tomorrow9))⟩] }

def defer (s : Store) (id : String) (newDate : Option Int) (now tomorrow9 : Int) :
    Except String (Store × Task) :=
  match mLookup s id with
  | none => .error ("Task not found: " ++ id)
  | some task =>
    .ok (mSet s id (deferredTaskOf task newDate now tomorrow9), deferredTaskOf task newDate now tomorrow9)

/-- The parent after `delete` prunes a child id. -/
def parentWithoutChild (parent : Task) (id : String) (now : Int) : Task :=
  { parent with
    childIds := parent.childIds.filter (fun cid => cid ≠ id)
    updatedAt := now
    history := parent.history ++
      [⟨now, .updated, "Removed child task: " ++ id,
        .vStrs parent.childIds, .vStrs (parent.childIds.filter (fun cid => cid ≠ id))⟩] }

/-- `TaskStore.delete`: rejected unless `explicit`; prunes the deleted id
from a resolvable parent's `childIds` (recording parent history) and
removes the entry. -/
def delete (s : Store) (id : String) (explicit : Bool) (now : Int) : Except String Store :=
  if !explicit then .error "Task deletion requires explicit user request"
  else
    match mLookup s id with
    | none => .error ("Task not found: " ++ id)
    | some task =>
      let s1 :=
        match task.parentId with
        | some pid =>
          match mLookup s pid with
          | some parent => mSet s pid (parentWithoutChild parent id now)
          | none => s
        | none => s
      .ok (mDelete s1 id)

end TaskStore

/-- A store operation together with the ambient values (`new Date()`,
generated UUID) of its execution. -/
inductive Op where
  | create (input : TaskInput) (now : Int) (id : String)
  | update (id : String) (u : TaskUpdate) (explicit : Bool) (now : Int)
  | complete (id : String) (now : Int)
  | defer (id : String) (newDate : Option Int) (now tomorrow9 : Int)
  | delete (id : String) (explicit : Bool) (now : Int)

/-- The store state after an operation (a thrown rejection leaves the
store untouched). -/
def applyOp (s : Store) : Op → Store
  | .create input now id => (TaskStore.create s input now id).1
  | .update id u explicit now =>
    match TaskStore.update s id u explicit now with
    | .ok r => r.1
    | .error _ => s
  | .complete id now =>
    match TaskStore.complete s id now with
    | .ok r => r.1
    | .error _ => s
  | .defer id newDate now tomorrow9 =>
    match TaskStore.defer s id newDate now tomorrow9 with
    | .ok r => r.1
    | .error _ => s
  | .delete id explicit now =>
    match TaskStore.delete s id explicit now with
    | .ok r => r
    | .error _ => s

/-- Well-formedness of an execution step: generated UUIDs are fresh. -/
def wfOp (s : Store) : Op → Prop
  | .create _ _ id => mLookup s id = none
  | _ => True


/-! ### Priority engine (`PriorityEngine`)

`classify` is `calculatePriority`; `new Date()` becomes the explicit
parameter `now`. -/

structure PriorityFactor where
  name : String
  weight : Int
  value : Int
  explanation : String
deriving DecidableEq

structure PriorityResult where
  level : PriorityLevel
  reason : String
  score : Int
  factors : List PriorityFactor
deriving DecidableEq

def priorityOrder : PriorityLevel → Int
  | .high => 0
  | .medium => 1
  | .low => 2

def priorityValue : PriorityLevel → Int
  | .high => 100
  | .medium => 50
  | .low => 20

/-- `calculateDeadlineFactor` (weight 50). -/
def calculateDeadlineFactor (task : Task) (now : Int) : PriorityFactor :=
  match task.deadline with
  | none => ⟨"deadline", 50, 30, "No deadline set"⟩
  | some dl =>
    let hoursUntil : ℚ := ((dl - now : Int) : ℚ) / (1000 * 60 * 60)
    if hoursUntil ≤ 0 then
      ⟨"deadline", 50, 100, "Overdue"⟩
    else if hoursUntil ≤ 24 then
      ⟨"deadline", 50, 100, "Due within 24 hours"⟩
    else if hoursUntil ≤ 168 then
      let daysUntil : ℚ := hoursUntil / 24
      ⟨"deadline", 50, jsRound (90 - (daysUntil - 1) * 3),
        "Due in " ++ toString (jsCeil daysUntil) ++ " days"⟩
    else
      let daysUntil : ℚ := hoursUntil / 24
      ⟨"deadline", 50, max 20 (jsRound (60 - daysUntil)),
        "Due in " ++ toString (jsCeil daysUntil) ++ " days"⟩

/-- `calculateExistingPriorityFactor` (weight 30). -/
def calculateExistingPriorityFactor (task : Task) : PriorityFactor :=
  let levelName :=
    match task.priority with
    | .high => "high"
    | .medium => "medium"
    | .low => "low"
  ⟨"existing_priority", 30, priorityValue task.priority, "Current priority: " ++ levelName⟩

/-- `calculateAgeFactor` (weight 10). -/
def calculateAgeFactor (task : Task) (now : Int) : PriorityFactor :=
  let ageInDays : ℚ := ((now - task.createdAt : Int) : ℚ) / (1000 * 60 * 60 * 24)
  ⟨"age", 10, min 100 (jsRound (30 + ageInDays * 10)),
    "Created " ++ toString (⌊ageInDays⌋ : Int) ++ " days ago"⟩

/-- `calculateHierarchyFactor` (weight 10). -/
def calculateHierarchyFactor (task : Task) : PriorityFactor :=
  if task.childIds.length > 0 then ⟨"hierarchy", 10, 70, "Has subtasks"⟩
  else if task.parentId.isSome then ⟨"hierarchy", 10, 50, "Is a subtask"⟩
  else ⟨"hierarchy", 10, 40, "Standalone task"⟩

def scoreToLevel (score : Int) : PriorityLevel :=
  if score ≥ 70 then .high
  else if score ≥ 40 then .medium
  else .low

def levelCap : PriorityLevel → String
  | .high => "High"
  | .medium => "Medium"
  | .low => "Low"

def defaultReason : PriorityLevel → String
  | .high => "High: Urgent task"
  | .medium => "Medium: Standard priority"
  | .low => "Low: No immediate deadline"

/-- The capture of the regular expression `Due in (\d+) days` applied to a
deadline explanation (which, when it starts with "Due in", always has the
exact shape `Due in <digits> days`). -/
def dueInDays? (s : String) : Option Nat :=
  if s.startsWith "Due in " && s.endsWith " days" then ((s.drop 7).dropRight 5).toNat?
  else none

/-- `generateReason`. -/
def generateReason (level : PriorityLevel) (factors : List PriorityFactor) : String :=
  match factors.find? (fun f => f.name = "deadline") with
  | some df =>
    if df.explanation = "Overdue" then "High: Overdue"
    else if df.explanation = "Due within 24 hours" then "High: Due within 24 hours"
    else if df.explanation.startsWith "Due in" then
      match dueInDays? df.explanation with
      | some days => if days ≤ 7 then levelCap level ++ ": " ++ df.explanation
                     else defaultReason level
      | none => defaultReason level
    else defaultReason level
  | none => defaultReason level

/-- `calculatePriority` (the spec's `classify`): weighted average of the
four factors, rounded, then mapped to a level. -/
def calculatePriority (task : Task) (now : Int) : PriorityResult :=
  let deadlineFactor := calculateDeadlineFactor task now
  let existingFactor := calculateExistingPriorityFactor task
  let ageFactor := calculateAgeFactor task now
  let hierarchyFactor := calculateHierarchyFactor task
  let factors := [deadlineFactor, existingFactor, ageFactor, hierarchyFactor]
  let totalScore := deadlineFactor.value * deadlineFactor.weight +
    existingFactor.value * existingFactor.weight +
    ageFactor.value * ageFactor.weight +
    hierarchyFactor.value * hierarchyFactor.weight
  let totalWeight := deadlineFactor.weight + existingFactor.weight +
    ageFactor.weight + hierarchyFactor.weight
  let score := jsRound ((totalScore : ℚ) / (totalWeight : ℚ))
  let level := scoreToLevel score
  { level := level, reason := generateReason level factors, score := score, factors := factors }

/-- The comparator of `prioritizeTasks`: priority rank, then deadline
(present before absent, earlier first); creation time only when both
deadlines are absent. -/
def cmpTasks (a b : Task) : Int :=
  let priorityDiff := priorityOrder a.priority - priorityOrder b.priority
  if priorityDiff ≠ 0 then priorityDiff
  else
    match a.deadline, b.deadline with
    | some da, some db => da - db
    | some _, none => -1
    | none, some _ => 1
    | none, none => a.createdAt - b.createdAt

/-- The comparator's non-strict order, as a relation. -/
def taskLe (a b : Task) : Prop := cmpTasks a b ≤ 0

instance : DecidableRel taskLe := fun a b => inferInstanceAs (Decidable (cmpTasks a b ≤ 0))

/-- `prioritizeTasks`: `Array.prototype.sort` is a stable sort
(ECMAScript 2019), and for the total preorder `taskLe` the stable sorted
permutation is unique, so it is modelled by stable insertion sort. -/
def prioritizeTasks (tasks : List Task) : List Task :=
  tasks.insertionSort taskLe

/-- `getNextTask`. -/
def getNextTask (tasks : List Task) : Option Task :=
  let pendingTasks := tasks.filter (fun t => t.status = .pending ∨ t.status = .in_progress)
  (prioritizeTasks pendingTasks).head?

/-! ### Atomization engine (`AtomizationEngine`)

The external `generateJSON` call is the explicit `llm : Except Unit
AtomizationLLMResponse` parameter: `.error` is any rejection of the
collaborator (network, malformed output, ...). -/

def ACTION_VERBS : List String :=
  ["Write", "Draft", "Create", "Design", "Build", "Implement", "Develop",
   "Review", "Edit", "Update", "Fix", "Debug", "Test", "Verify", "Check",
   "Research", "Analyze", "Investigate", "Explore", "Study", "Learn",
   "Send", "Email", "Call", "Contact", "Schedule", "Meet", "Discuss",
   "Prepare", "Plan", "Organize", "Set up", "Configure", "Install",
   "Document", "Record", "Note", "List", "Outline", "Summarize",
   "Complete", "Finish", "Submit", "Deliver", "Present", "Share",
   "Gather", "Collect", "Find", "Locate", "Identify", "Select",
   "Define", "Specify", "Clarify", "Confirm", "Validate", "Approve"]

/-- JavaScript `String.prototype.includes`. -/
def containsSub (s pat : String) : Bool :=
  decide (pat.toList <:+: s.toList)

/-- `ensureActionVerb`. -/
def ensureActionVerb (title : String) : String :=
  let firstWord := (title.splitOn " ").headD ""
  let isVerb := ACTION_VERBS.any (fun verb => firstWord.toLower = verb.toLower)
  if isVerb then title
  else
    let lowerTitle := title.toLower
    if containsSub lowerTitle "email" || containsSub lowerTitle "message" then
      "Send " ++ title
    else if containsSub lowerTitle "meeting" || containsSub lowerTitle "call" then
      "Schedule " ++ title
    else if containsSub lowerTitle "report" || containsSub lowerTitle "document" then
      "Write " ++ title
    else if containsSub lowerTitle "bug" || containsSub lowerTitle "issue" then
      "Fix " ++ title
    else if containsSub lowerTitle "test" then
      "Run " ++ title
    else
      "Complete " ++ title

/-- `clampTimeEstimate`: clamp into [15, 60]. -/
def clampTimeEstimate (minutes : Int) : Int :=
  max 15 (min 60 minutes)

/-- A micro-task suggestion.  `dependsOn` holds the `parseInt` value of
each dependency string (`none` for NaN); the source stores the strings
and parses them at each use site. -/
structure MicroTaskSuggestion where
  title : String
  description : Option String
  estimatedMinutes : Int
  dependsOn : List (Option Int)
  isParallelizable : Bool
deriving DecidableEq, Inhabited

inductive DepType where
  | blocks | informs
deriving DecidableEq

structure Dependency where
  fromIndex : Int
  toIndex : Nat
  type : DepType
deriving DecidableEq

structure AtomizationResult where
  microTasks : List MicroTaskSuggestion
  dependencies : List Dependency
  parallelGroups : List (List Nat)
  mvpSuggestion : Option String
deriving DecidableEq

/-- A micro-task of the structured LLM response (schema requires `title`
and `estimatedMinutes`, but the engine defends field-by-field anyway). -/
structure LLMMicroTask where
  title : String
  description : Option String
  estimatedMinutes : Option Int
  dependsOn : Option (List Int)
deriving DecidableEq

structure AtomizationLLMResponse where
  microTasks : List LLMMicroTask
  mvpSuggestion : Option String
deriving DecidableEq

/-- `buildParallelGroups`: bucket maximal runs of consecutive
parallelizable micro-tasks. -/
def buildParallelGroups (microTasks : List MicroTaskSuggestion) : List (List Nat) :=
  let fin := microTasks.enum.foldl
    (fun (st : List (List Nat) × List Nat) p =>
      if p.2.isParallelizable then (st.1, st.2 ++ [p.1])
      else if st.2.isEmpty then st
      else (st.1 ++ [st.2], []))
    ([], [])
  if fin.2.isEmpty then fin.1 else fin.1 ++ [fin.2]

/-- `processLLMResponse`.  `mt.estimatedMinutes || 30` defaults a missing
or zero (falsy) duration to 30 before clamping; a missing `dependsOn`
becomes the empty list and marks the task parallelizable. -/
def processLLMResponse (response : AtomizationLLMResponse) (originalTask : Task) :
    AtomizationResult :=
  let microTasks : List MicroTaskSuggestion := response.microTasks.map fun mt =>
    { title := ensureActionVerb mt.title
      description := mt.description
      estimatedMinutes := clampTimeEstimate
        (match mt.estimatedMinutes with
         | none => 30
         | some m => if m = 0 then 30 else m)
      dependsOn := (mt.dependsOn.getD []).map (fun n => some n)
      isParallelizable := (mt.dependsOn.getD []).isEmpty }
  let dependencies : List Dependency := microTasks.enum.foldl
    (fun acc p =>
      acc ++ p.2.dependsOn.filterMap (fun d =>
        match d with
        | some fromIndex =>
          if fromIndex < (microTasks.length : Int) then
            some ⟨fromIndex, p.1, .blocks⟩
          else none
        | none => none))
    []
  let parallelGroups := buildParallelGroups microTasks
  let mvpFalsy := response.mvpSuggestion = none ∨ response.mvpSuggestion = some ""
  let mvpSuggestion :=
    if mvpFalsy ∧ originalTask.deadline.isSome ∧ 0 < microTasks.length then
      some ("Complete \"" ++ ((microTasks.headD default).title) ++ "\"")
    else response.mvpSuggestion
  { microTasks := microTasks
    dependencies := dependencies
    parallelGroups := parallelGroups
    mvpSuggestion := mvpSuggestion }

/-- `createSingleTaskResult`: the deterministic fallback wrapping the
original task (`task.estimatedMinutes ? clamp : 30`, 0 being falsy). -/
def createSingleTaskResult (task : Task) : AtomizationResult :=
  { microTasks :=
      [{ title := ensureActionVerb task.title
         description := task.description
         estimatedMinutes :=
           match task.estimatedMinutes with
           | some m => if m = 0 then 30 else clampTimeEstimate m
           | none => 30
         dependsOn := []
         isParallelizable := true }]
    dependencies := []
    parallelGroups := [[0]]
    mvpSuggestion := task.deadline.map (fun _ => "Complete \"" ++ task.title ++ "\"") }

/-- The short-circuit test of `atomize`:
`task.estimatedMinutes && task.estimatedMinutes <= 60`. -/
def smallEnough (task : Task) : Prop :=
  match task.estimatedMinutes with
  | some m => m ≠ 0 ∧ m ≤ 60
  | none => False

instance (task : Task) : Decidable (smallEnough task) := by
  unfold smallEnough
  match task.estimatedMinutes with
  | some m => exact inferInstanceAs (Decidable (m ≠ 0 ∧ m ≤ 60))
  | none => exact inferInstanceAs (Decidable False)

/-- `atomize`: short-circuit small tasks; otherwise consult the external
collaborator, falling back to the single-task result on ANY failure. -/
def atomize (task : Task) (llm : Except Unit AtomizationLLMResponse) : AtomizationResult :=
  if smallEnough task then createSingleTaskResult task
  else
    match llm with
    | .ok result => processLLMResponse result task
    | .error _ => createSingleTaskResult task


/-! #### `topologicalSort` (Kahn's algorithm)

The source parses each dependency string, skipping NaN, indices `>= n`
and self-references; a dependency parsing to a negative index passes the
guard and makes `adjList[fromIndex].push` throw a `TypeError`
(`adjList[-1]` is `undefined`). -/

/-- True when some dependency parses to a negative index, which makes the
source throw. -/
def hasNegDep (mts : List MicroTaskSuggestion) : Bool :=
  mts.any fun mt => mt.dependsOn.any fun d =>
    match d with
    | some fromIndex => decide (fromIndex < 0)
    | none => false

/-- The edges `(fromIndex, toIndex)` recorded by the build loop (guard:
parsed, `< n`, not a self-reference; all indices nonnegative here — the
negative case throws instead). -/
def kahnEdges (mts : List MicroTaskSuggestion) : List (Nat × Nat) :=
  let n := mts.length
  mts.enum.foldl
    (fun acc p =>
      acc ++ p.2.dependsOn.filterMap (fun d =>
        match d with
        | some fromIndex =>
          if 0 ≤ fromIndex ∧ fromIndex < (n : Int) ∧ fromIndex ≠ (p.1 : Int) then
            some (fromIndex.toNat, p.1)
          else none
        | none => none))
    []

/-- `inDegree`: for each node, the number of recorded incoming edges. -/
def initInDeg (n : Nat) (edges : List (Nat × Nat)) : List Int :=
  (List.range n).map fun v => ((edges.filter (fun e => e.2 = v)).length : Int)

/-- `adjList[u]`: targets of the recorded edges out of `u`, in build order. -/
def adjOf (edges : List (Nat × Nat)) (u : Nat) : List Nat :=
  (edges.filter (fun e => e.1 = u)).map (fun e => e.2)

/-- The initial queue: nodes of in-degree zero, ascending. -/
def initQueue (n : Nat) (inDeg : List Int) : List Nat :=
  (List.range n).filter fun v => inDeg.getD v 0 = 0

/-- Process the neighbors of a popped node: decrement each one's
in-degree, enqueueing those that reach zero. -/
def processNeighbors (nbrs : List Nat) (inDeg : List Int) (queue : List Nat) :
    List Int × List Nat :=
  nbrs.foldl
    (fun st nb =>
      let d := st.1.getD nb 0 - 1
      let inDeg' := st.1.set nb d
      if d = 0 then (inDeg', st.2 ++ [nb]) else (inDeg', st.2))
    (inDeg, queue)

/-- The `while (queue.length > 0)` loop.  The fuel only bounds the
iteration count: the queue always holds distinct not-yet-emitted node
indices (proved below), so at most `n` iterations run and fuel `n + 1`
is never exhausted. -/
def kahnLoop (adj : Nat → List Nat) : Nat → List Int → List Nat → List Nat → List Nat
  | 0, _, _, result => result
  | fuel + 1, inDeg, queue, result =>
    match queue with
    | [] => result
    | node :: rest =>
      let st := processNeighbors (adj node) inDeg rest
      kahnLoop adj fuel st.1 st.2 (result ++ [node])

/-- `topologicalSort`: Kahn's algorithm; on incomplete processing (a
cycle among the recorded edges) fall back to the original index order.
A negative parsed dependency index is the thrown `TypeError`. -/
def topologicalSort (mts : List MicroTaskSuggestion) : Except Unit (List Nat) :=
  if hasNegDep mts then .error ()
  else
    let n := mts.length
    let edges := kahnEdges mts
    let inDeg := initInDeg n edges
    let result := kahnLoop (adjOf edges) (n + 1) inDeg (initQueue n inDeg) []
    if result.length ≠ n then .ok (List.range n) else .ok result

/-- The dependency-graph edge relation of a micro-task list, as recorded
by the sort's guard. -/
def depEdge (mts : List MicroTaskSuggestion) (u v : Nat) : Prop :=
  (u, v) ∈ kahnEdges mts

/-- Acyclicity of the recorded dependency graph. -/
def AcyclicDeps (mts : List MicroTaskSuggestion) : Prop :=
  ∀ v, ¬ Relation.TransGen (depEdge mts) v v

/-- The Kahn-loop invariant: `inDeg` counts, for each node, the edges
whose source has not yet been emitted into `result`; the queue holds
exactly the unemitted nodes of count zero, without duplicates; emitted
targets follow their sources. -/
structure KahnInv (edges : List (Nat × Nat)) (n : Nat)
    (inDeg : List Int) (queue result : List Nat) : Prop where
  hlen : inDeg.length = n
  hq : ∀ v ∈ queue, v < n
  hr : ∀ v ∈ result, v < n
  hnq : queue.Nodup
  hnr : result.Nodup
  hdisj : ∀ v ∈ queue, v ∉ result
  hdeg : ∀ v < n, inDeg.getD v 0 =
    (edges.countP (fun e => decide (e.2 = v ∧ e.1 ∉ result)) : Int)
  hqz : ∀ v ∈ queue, inDeg.getD v 0 = 0
  hpend : ∀ v < n, v ∉ result → v ∉ queue → inDeg.getD v 0 ≠ 0
  hord : ∀ e ∈ edges, e.2 ∈ result → List.Sublist [e.1, e.2] result

/-! ### Progress manager (`progress-manager.ts`)

`formatDate` renders the UTC calendar day (`toISOString().split('T')[0]`);
days are identified with their epoch-day numbers, which respects both
string equality and the lexicographic order `localeCompare` uses on
equal-length `YYYY-MM-DD` strings. -/

/-- The calendar day (epoch-day number) shown by `formatDate`. -/
def completionDay (t : Int) : Int := t / 86400000

/-- `getCompletionDates`: distinct days (first-occurrence order, as a JS
`Set`) on which some completed task recorded its `completed` entry. -/
def getCompletionDates (tasks : List Task) : List Int :=
  tasks.foldl
    (fun acc t =>
      if t.status = .completed then
        match t.history.find? (fun h => h.action = .completed) with
        | some entry =>
          let d := completionDay entry.timestamp
          if d ∈ acc then acc else acc ++ [d]
        | none => acc
      else acc)
    []

instance : DecidableRel (fun a b : Int => b ≤ a) :=
  fun a b => inferInstanceAs (Decidable (b ≤ a))

/-- Sort the (distinct) completion days most-recent first
(`sort((a, b) => b.localeCompare(a))`). -/
def sortDatesDesc (dates : List Int) : List Int :=
  dates.insertionSort (fun a b => b ≤ a)

/-- The `for (const date of sortedDates)` loop of `calculateStreak`. -/
def streakLoop : List Int → Int → Nat → Nat
  | [], _, streak => streak
  | date :: rest, currentDate, streak =>
    if date = currentDate then streakLoop rest (currentDate - 1) (streak + 1)
    else if date < currentDate then streak
    else streakLoop rest currentDate streak

/-- `calculateStreak` with "today" passed explicitly. -/
def calculateStreak (tasks : List Task) (today : Int) : Nat :=
  let completionDates := getCompletionDates tasks
  if completionDates.isEmpty then 0
  else
    let sortedDates := sortDatesDesc completionDates
    let yesterday := today - 1
    match sortedDates with
    | [] => 0
    | d0 :: _ =>
      if d0 ≠ today ∧ d0 ≠ yesterday then 0
      else streakLoop sortedDates (if d0 = today then today else yesterday) 0


/-! ### Executions of store operations -/

/-- Keys of a genuine `Map` state are distinct. -/
def storeWF (s : Store) : Prop := (s.map Prod.fst).Nodup

/-- Fold a sequence of operations over the store. -/
def applyOps (s : Store) (ops : List Op) : Store := ops.foldl applyOp s

/-- Well-formedness of a whole execution: each step's generated id is
fresh in the state it runs in. -/
def wfOps : Store → List Op → Prop
  | _, [] => True
  | s, op :: rest => wfOp s op ∧ wfOps (applyOp s op) rest

/-! ### Order relations describing the `prioritizeTasks` contract -/

/-- Deadline precedence: an earlier deadline, or having one at all. -/
def deadlineLtSpec (a b : Task) : Prop :=
  match a.deadline, b.deadline with
  | some da, some db => da < db
  | some _, none => True
  | none, some _ => False
  | none, none => False

/-- Deadline equivalence: both absent, or equal instants. -/
def deadlineEqSpec (a b : Task) : Prop :=
  match a.deadline, b.deadline with
  | some da, some db => da = db
  | none, none => True
  | some _, none => False
  | none, some _ => False

instance (a b : Task) : Decidable (deadlineLtSpec a b) := by
  unfold deadlineLtSpec
  match a.deadline, b.deadline with
  | some da, some db => exact inferInstanceAs (Decidable (da < db))
  | some _, none => exact inferInstanceAs (Decidable True)
  | none, some _ => exact inferInstanceAs (Decidable False)
  | none, none => exact inferInstanceAs (Decidable False)

instance (a b : Task) : Decidable (deadlineEqSpec a b) := by
  unfold deadlineEqSpec
  match a.deadline, b.deadline with
  | some da, some db => exact inferInstanceAs (Decidable (da = db))
  | some _, none => exact inferInstanceAs (Decidable False)
  | none, some _ => exact inferInstanceAs (Decidable False)
  | none, none => exact inferInstanceAs (Decidable True)

/-- The ordering the claim describes: priority rank, then deadline, then
creation time as the final tie-break among all deadline ties. -/
def claimLe (a b : Task) : Prop :=
  priorityOrder a.priority < priorityOrder b.priority ∨
  (priorityOrder a.priority = priorityOrder b.priority ∧
    (deadlineLtSpec a b ∨ (deadlineEqSpec a b ∧ a.createdAt ≤ b.createdAt)))

/-- The ordering the comparator actually implements: creation time breaks
ties only between two tasks that both lack a deadline; tasks sharing an
equal deadline are left in input order. -/
def codeLe (a b : Task) : Prop :=
  priorityOrder a.priority < priorityOrder b.priority ∨
  (priorityOrder a.priority = priorityOrder b.priority ∧
    (deadlineLtSpec a b ∨
      (deadlineEqSpec a b ∧ (a.deadline = none → a.createdAt ≤ b.createdAt))))

instance (a b : Task) : Decidable (claimLe a b) := by
  unfold claimLe; infer_instance

instance (a b : Task) : Decidable (codeLe a b) := by
  unfold codeLe; infer_instance

instance : IsTotal Task taskLe where
  total := by
    intro a b
    unfold taskLe cmpTasks
    rcases ha : a.deadline with _ | da <;> rcases hb : b.deadline with _ | db <;>
      simp only [] <;> split_ifs <;> omega

instance : IsTrans Task taskLe where
  trans := by
    intro a b c hab hbc
    unfold taskLe cmpTasks at *
    rcases ha : a.deadline with _ | da <;> rcases hb : b.deadline with _ | db <;>
      rcases hc : c.deadline with _ | dc <;>
      simp only [ha, hb, hc] at * <;> split_ifs at * <;> omega

/-! ### Sample values used in concrete scenarios -/

/-- A plain pending task (fields as `TaskStore.create` builds them). -/
def sampleTask (id : String) (createdAt : Int) (deadline : Option Int)
    (priority : PriorityLevel) : Task :=
  { id := id
    createdAt := createdAt
    updatedAt := createdAt
    title := "Sample " ++ id
    description := none
    rawInput := "Sample " ++ id
    parentId := none
    childIds := []
    deadline := deadline
    scheduledDate := none
    estimatedMinutes := none
    priority := priority
    priorityReason := "Default priority"
    status := .pending
    context := { originalGoal := none, parentContext := none, notes := [], relatedTaskIds := [] }
    history := [⟨createdAt, .created, "Task created", .vNone, .vNone⟩] }

/-- A task completed at instant `ts` (status and history as
`TaskStore.complete` leaves them). -/
def completedTask (id : String) (ts : Int) : Task :=
  { sampleTask id 0 none .medium with
    status := .completed
    updatedAt := ts
    history := [⟨0, .created, "Task created", .vNone, .vNone⟩,
      ⟨ts, .completed, "Task marked as complete", .vStatus .pending, .vStatus .completed⟩] }

/-! ## Theorems -/

/-! ### Calendar correctness and the serialization round-trip (C8) -/

theorem bdryOkRange_sound :
    ∀ (fuel lo hi : Nat), bdryOkRange fuel lo hi = true →
      ∀ n, lo ≤ n → n < hi → bdryOk n = true := by
  intro fuel
  induction fuel with
  | zero => intro lo hi h; simp [bdryOkRange] at h
  | succ f ih =>
    intro lo hi h n hlo hhi
    rw [bdryOkRange] at h
    by_cases h1 : hi ≤ lo
    · omega
    · simp only [if_neg h1] at h
      by_cases h2 : hi = lo + 1
      · simp only [if_pos h2] at h
        have hn : n = lo := by omega
        subst hn; exact h
      · simp only [if_neg h2, Bool.and_eq_true] at h
        by_cases h3 : n < (lo + hi) / 2
        · exact ih lo ((lo + hi) / 2) h.1 n hlo h3
        · exact ih ((lo + hi) / 2) hi h.2 n (by omega) hhi

set_option maxRecDepth 2000 in
theorem bdryOk_all : bdryOkRange 12 0 400 = true := by decide

theorem bdry_fact {y : Nat} (h : y < 400) :
    yoeN (dupN y) = y ∧ yoeN (dupN (y + 1) - 1) = y := by
  have hb := bdryOkRange_sound 12 0 400 bdryOk_all y (Nat.zero_le y) h
  unfold bdryOk at hb
  simp only [Bool.and_eq_true, decide_eq_true_eq] at hb
  exact hb

theorem yoeN_step (n : Nat) : yoeN n ≤ yoeN (n + 1) := by
  unfold yoeN
  omega

theorem yoeN_mono {m n : Nat} (h : m ≤ n) : yoeN m ≤ yoeN n := by
  induction n with
  | zero =>
    have hm : m = 0 := by omega
    subst hm; exact Nat.le_refl _
  | succ k ih =>
    rcases Nat.le_succ_iff.mp h with h1 | h1
    · exact Nat.le_trans (ih h1) (yoeN_step k)
    · subst h1; exact Nat.le_refl _

/-- For a day-of-era in range, `yoeN` names a year whose span contains it. -/
theorem yoeN_bounds (n : Nat) (h : n ≤ 146096) :
    yoeN n ≤ 399 ∧ dupN (yoeN n) ≤ n ∧ n ≤ dupN (yoeN n) + 365 := by
  have h399 : yoeN n ≤ 399 := by
    have hm : yoeN n ≤ yoeN 146096 := yoeN_mono h
    have he : yoeN 146096 = 399 := by decide
    omega
  refine ⟨h399, ?_, ?_⟩
  · by_cases h0 : yoeN n = 0
    · rw [h0]; unfold dupN; omega
    · by_contra hlt
      push_neg at hlt
      have hY : yoeN n - 1 < 400 := by omega
      have hb := (bdry_fact hY).2
      have hsucc : (yoeN n - 1) + 1 = yoeN n := by omega
      rw [hsucc] at hb
      have hx : n ≤ dupN (yoeN n) - 1 := by omega
      have hmono := yoeN_mono hx
      rw [hb] at hmono
      omega
  · by_contra hlt
    push_neg at hlt
    by_cases hY : yoeN n = 399
    · rw [hY] at hlt
      have hv : dupN 399 = 145731 := by decide
      omega
    · have hY1 : yoeN n + 1 < 400 := by omega
      have hb := (bdry_fact hY1).1
      have hlen : dupN (yoeN n + 1) ≤ dupN (yoeN n) + 366 := by
        unfold dupN; omega
      have hx : dupN (yoeN n + 1) ≤ n := by omega
      have hmono := yoeN_mono hx
      rw [hb] at hmono
      omega

/-- The year-of-era bounds transferred to the `Int` computation of
`civilFromDays`. -/
theorem yoe_bounds_int (doe : Int) (h0 : 0 ≤ doe) (h1 : doe ≤ 146096) :
    0 ≤ (doe - doe / 1460 + doe / 36524 - doe / 146096) / 365 ∧
    (doe - doe / 1460 + doe / 36524 - doe / 146096) / 365 ≤ 399 ∧
    365 * ((doe - doe / 1460 + doe / 36524 - doe / 146096) / 365) +
        ((doe - doe / 1460 + doe / 36524 - doe / 146096) / 365) / 4 -
        ((doe - doe / 1460 + doe / 36524 - doe / 146096) / 365) / 100 ≤ doe ∧
    doe - (365 * ((doe - doe / 1460 + doe / 36524 - doe / 146096) / 365) +
        ((doe - doe / 1460 + doe / 36524 - doe / 146096) / 365) / 4 -
        ((doe - doe / 1460 + doe / 36524 - doe / 146096) / 365) / 100) ≤ 365 := by
  have hb := yoeN_bounds doe.toNat (by omega)
  unfold yoeN dupN at hb
  obtain ⟨hb1, hb2, hb3⟩ := hb
  set m : Nat := doe.toNat with hm
  have e1 : doe / 1460 = ((m / 1460 : Nat) : Int) := by omega
  have e2 : doe / 36524 = ((m / 36524 : Nat) : Int) := by omega
  have e3 : doe / 146096 = ((m / 146096 : Nat) : Int) := by omega
  have eN : doe - doe / 1460 + doe / 36524 - doe / 146096 =
      ((m + m / 36524 - m / 1460 - m / 146096 : Nat) : Int) := by
    rw [e1, e2, e3]; omega
  have eY : (doe - doe / 1460 + doe / 36524 - doe / 146096) / 365 =
      (((m + m / 36524 - m / 1460 - m / 146096) / 365 : Nat) : Int) := by
    rw [eN]; omega
  rw [eY]
  omega

/-- Abstract-variable core of the day-number round trip: `daysFromCivil`
inverts the (year, month, day) triple built from any in-range
day-of-era/year-of-era decomposition. -/
theorem roundtrip_core (z era doe yoe doy mp : Int)
    (hdoe : doe = z + 719468 - era * 146097)
    (hyb : 0 ≤ yoe ∧ yoe ≤ 399)
    (hdoy : doy = doe - (365 * yoe + yoe / 4 - yoe / 100))
    (hdoyb : 0 ≤ doy ∧ doy ≤ 365)
    (hmp : mp = (5 * doy + 2) / 153) :
    daysFromCivil
      (if (if mp < 10 then mp + 3 else mp - 9) ≤ 2 then yoe + era * 400 + 1 else yoe + era * 400)
      (if mp < 10 then mp + 3 else mp - 9)
      (doy - (153 * mp + 2) / 5 + 1) = z := by
  have e1 : (yoe + era * 400) / 400 = era := by omega
  have e2 : (yoe + era * 400 + 1 - 1) / 400 = era := by omega
  have e3 : (yoe + era * 400 - era * 400) / 4 = yoe / 4 := by omega
  have e4 : (yoe + era * 400 - era * 400) / 100 = yoe / 100 := by omega
  have e5 : (yoe + era * 400 + 1 - 1 - era * 400) / 4 = yoe / 4 := by omega
  have e6 : (yoe + era * 400 + 1 - 1 - era * 400) / 100 = yoe / 100 := by omega
  have e7 : (153 * (mp + 3 - 3) + 2) / 5 = (153 * mp + 2) / 5 := by omega
  have e8 : (153 * (mp - 9 + 9) + 2) / 5 = (153 * mp + 2) / 5 := by omega
  unfold daysFromCivil
  simp only []
  split_ifs <;> simp only [e1, e2, e3, e4, e5, e6, e7, e8] <;> omega

/-- `daysFromCivil` inverts `civilFromDays` on every day number. -/
theorem days_roundtrip (z : Int) :
    daysFromCivil (civilFromDays z).1 (civilFromDays z).2.1 (civilFromDays z).2.2 = z := by
  have hdoe0 : (0:Int) ≤ z + 719468 - (z + 719468) / 146097 * 146097 := by omega
  have hdoe1 : z + 719468 - (z + 719468) / 146097 * 146097 ≤ 146096 := by omega
  have hy := yoe_bounds_int _ hdoe0 hdoe1
  obtain ⟨hy0, hy1, hy2, hy3⟩ := hy
  have hcore := roundtrip_core z ((z + 719468) / 146097)
    (z + 719468 - (z + 719468) / 146097 * 146097)
    ((z + 719468 - (z + 719468) / 146097 * 146097 -
        (z + 719468 - (z + 719468) / 146097 * 146097) / 1460 +
        (z + 719468 - (z + 719468) / 146097 * 146097) / 36524 -
        (z + 719468 - (z + 719468) / 146097 * 146097) / 146096) / 365)
    ((z + 719468 - (z + 719468) / 146097 * 146097) -
      (365 * ((z + 719468 - (z + 719468) / 146097 * 146097 -
        (z + 719468 - (z + 719468) / 146097 * 146097) / 1460 +
        (z + 719468 - (z + 719468) / 146097 * 146097) / 36524 -
        (z + 719468 - (z + 719468) / 146097 * 146097) / 146096) / 365) +
        ((z + 719468 - (z + 719468) / 146097 * 146097 -
        (z + 719468 - (z + 719468) / 146097 * 146097) / 1460 +
        (z + 719468 - (z + 719468) / 146097 * 146097) / 36524 -
        (z + 719468 - (z + 719468) / 146097 * 146097) / 146096) / 365) / 4 -
        ((z + 719468 - (z + 719468) / 146097 * 146097 -
        (z + 719468 - (z + 719468) / 146097 * 146097) / 1460 +
        (z + 719468 - (z + 719468) / 146097 * 146097) / 36524 -
        (z + 719468 - (z + 719468) / 146097 * 146097) / 146096) / 365) / 100))
    ((5 * ((z + 719468 - (z + 719468) / 146097 * 146097) -
      (365 * ((z + 719468 - (z + 719468) / 146097 * 146097 -
        (z + 719468 - (z + 719468) / 146097 * 146097) / 1460 +
        (z + 719468 - (z + 719468) / 146097 * 146097) / 36524 -
        (z + 719468 - (z + 719468) / 146097 * 146097) / 146096) / 365) +
        ((z + 719468 - (z + 719468) / 146097 * 146097 -
        (z + 719468 - (z + 719468) / 146097 * 146097) / 1460 +
        (z + 719468 - (z + 719468) / 146097 * 146097) / 36524 -
        (z + 719468 - (z + 719468) / 146097 * 146097) / 146096) / 365) / 4 -
        ((z + 719468 - (z + 719468) / 146097 * 146097 -
        (z + 719468 - (z + 719468) / 146097 * 146097) / 1460 +
        (z + 719468 - (z + 719468) / 146097 * 146097) / 36524 -
        (z + 719468 - (z + 719468) / 146097 * 146097) / 146096) / 365) / 100)) + 2) / 153)
    (by omega) ⟨hy0, hy1⟩ (by ring) (by omega) (by ring)
  unfold civilFromDays
  simp only []
  exact hcore

/-- `new Date(d.toISOString())` recovers the instant exactly. -/
theorem instant_roundtrip (t : Int) : ofISOFields (toISOFields t) = t := by
  unfold ofISOFields toISOFields
  simp only []
  rw [days_roundtrip]
  omega


theorem date_opt_roundtrip (o : Option Int) : (o.map toISOFields).map ofISOFields = o := by
  cases o with
  | none => rfl
  | some t => simp [instant_roundtrip]

theorem hist_roundtrip (l : List TaskHistoryEntry) :
    (l.map fun h => (⟨toISOFields h.timestamp, h.action, h.details,
        h.previousValue, h.newValue⟩ : SerializedTaskHistoryEntry)).map
      (fun h => (⟨ofISOFields h.timestamp, h.action, h.details,
        h.previousValue, h.newValue⟩ : TaskHistoryEntry)) = l := by
  induction l with
  | nil => rfl
  | cons h t ih => simp [instant_roundtrip, ih]

/-- C8: for every task, `deserializeTask (serializeTask task)` reconstructs
a task with identical field values; in particular `createdAt`, `updatedAt`,
`deadline`, `scheduledDate` and each history timestamp compare equal as
instants to the originals. -/
theorem deserializeTask_serializeTask (task : Task) :
    deserializeTask (serializeTask task) = task := by
  obtain ⟨id, ca, ua, ti, de, ri, pi, ci, dl, sd, em, pr, prr, st, ctx, hist⟩ := task
  unfold serializeTask deserializeTask
  simp only [instant_roundtrip, date_opt_roundtrip, hist_roundtrip]


/-! ### Association-list (JS `Map`) lemmas -/

theorem mLookup_mSet_self (s : Store) (k : String) (t : Task) :
    mLookup (mSet s k t) k = some t := by
  induction s with
  | nil => simp [mSet, mLookup]
  | cons hd tl ih =>
    obtain ⟨k1, v1⟩ := hd
    by_cases h : k1 = k
    · simp [mSet, h, mLookup]
    · simp [mSet, h, mLookup, ih]

theorem mLookup_mSet_ne (s : Store) (k : String) (t : Task) (k' : String) (h : k' ≠ k) :
    mLookup (mSet s k t) k' = mLookup s k' := by
  induction s with
  | nil => simp [mSet, mLookup, Ne.symm h]
  | cons hd tl ih =>
    obtain ⟨k1, v1⟩ := hd
    by_cases h1 : k1 = k
    · subst h1
      simp [mSet, mLookup, Ne.symm h]
    · simp only [mSet, if_neg h1]
      by_cases h2 : k1 = k'
      · simp [mLookup, h2]
      · simp [mLookup, h2, ih]

theorem mLookup_mDelete_ne (s : Store) (k k' : String) (h : k' ≠ k) :
    mLookup (mDelete s k) k' = mLookup s k' := by
  induction s with
  | nil => simp [mDelete]
  | cons hd tl ih =>
    obtain ⟨k1, v1⟩ := hd
    by_cases h1 : k1 = k
    · subst h1
      simp [mDelete, mLookup, Ne.symm h]
    · simp only [mDelete, if_neg h1]
      by_cases h2 : k1 = k'
      · simp [mLookup, h2]
      · simp [mLookup, h2, ih]

/-! ### C2: `update`/`delete` with `explicit = false` are rejected -/

/-- C2: every call to `TaskStore.update` or `TaskStore.delete` with
`explicit = false` throws and leaves the store completely unchanged (so
no task is modified or removed and no history entry is appended). -/
theorem update_delete_require_explicit (s : Store) (id : String) (u : TaskUpdate)
    (now now2 : Int) :
    TaskStore.update s id u false now =
      .error "Task modifications require explicit user request" ∧
    TaskStore.delete s id false now2 =
      .error "Task deletion requires explicit user request" ∧
    applyOp s (.update id u false now) = s ∧
    applyOp s (.delete id false now2) = s :=
  ⟨rfl, rfl, rfl, rfl⟩

/-! ### C10: `create` with a dangling `parentId` -/

/-- C10: `TaskStore.create` with a `parentId` not present in the store
still succeeds: the new task keeps the dangling `parentId`, its context
copies nothing, and every existing task is untouched. -/
theorem create_dangling_parent (s : Store) (input : TaskInput) (now : Int) (id pid : String)
    (hpid : input.parentId = some pid)
    (hdangling : mLookup s pid = none) :
    (TaskStore.create s input now id).2.parentId = some pid ∧
    (TaskStore.create s input now id).2.context.parentContext = none ∧
    (TaskStore.create s input now id).2.context.originalGoal = none ∧
    (TaskStore.create s input now id).1 = mSet s id (TaskStore.create s input now id).2 ∧
    (∀ k, k ≠ id → mLookup (TaskStore.create s input now id).1 k = mLookup s k) := by
  unfold TaskStore.create
  rw [hpid]
  simp only [hdangling]
  refine ⟨by trivial, by trivial, by trivial, by trivial, ?_⟩
  intro k hk
  exact mLookup_mSet_ne s id _ k hk

/-- Witness for C10 at a concrete store and input. -/
theorem create_dangling_parent_witness :
    (TaskStore.create [] ⟨"buy milk", none, none, some "p0", none, none, none, none⟩ 0 "t1").2.parentId
        = some "p0" ∧
    (TaskStore.create [] ⟨"buy milk", none, none, some "p0", none, none, none, none⟩ 0 "t1").2.context.parentContext
        = none :=
  have h := create_dangling_parent [] ⟨"buy milk", none, none, some "p0", none, none, none, none⟩
    0 "t1" "p0" rfl rfl
  ⟨h.1, h.2.1⟩


/-! ### Store well-formedness is preserved -/

theorem keys_mSet_of_mem (s : Store) (k : String) (t : Task)
    (h : k ∈ s.map Prod.fst) : (mSet s k t).map Prod.fst = s.map Prod.fst := by
  induction s with
  | nil => simp at h
  | cons hd tl ih =>
    obtain ⟨k1, v1⟩ := hd
    by_cases h1 : k1 = k
    · simp [mSet, h1]
    · simp only [List.map_cons, List.mem_cons] at h
      rcases h with h | h
      · exact absurd h.symm h1
      · simp [mSet, h1, ih h]

theorem keys_mSet_of_notMem (s : Store) (k : String) (t : Task)
    (h : k ∉ s.map Prod.fst) : (mSet s k t).map Prod.fst = s.map Prod.fst ++ [k] := by
  induction s with
  | nil => simp [mSet]
  | cons hd tl ih =>
    obtain ⟨k1, v1⟩ := hd
    simp only [List.map_cons, List.mem_cons] at h
    push_neg at h
    simp [mSet, Ne.symm h.1, ih h.2]

theorem storeWF_mSet (s : Store) (k : String) (t : Task) (h : storeWF s) :
    storeWF (mSet s k t) := by
  unfold storeWF at *
  by_cases hm : k ∈ s.map Prod.fst
  · rw [keys_mSet_of_mem s k t hm]; exact h
  · rw [keys_mSet_of_notMem s k t hm]
    simp [List.nodup_append, h, hm]

theorem keys_mDelete_sublist (s : Store) (k : String) :
    List.Sublist ((mDelete s k).map Prod.fst) (s.map Prod.fst) := by
  induction s with
  | nil => simp [mDelete]
  | cons hd tl ih =>
    obtain ⟨k1, v1⟩ := hd
    by_cases h1 : k1 = k
    · simp only [mDelete, if_pos h1, List.map_cons]
      exact List.sublist_cons_of_sublist k1 (List.Sublist.refl _)
    · simp only [mDelete, if_neg h1, List.map_cons]
      exact List.Sublist.cons₂ k1 ih

theorem storeWF_mDelete (s : Store) (k : String) (h : storeWF s) :
    storeWF (mDelete s k) :=
  List.Nodup.sublist (keys_mDelete_sublist s k) h

theorem mLookup_none_of_notMem (s : Store) (k : String) (h : k ∉ s.map Prod.fst) :
    mLookup s k = none := by
  induction s with
  | nil => rfl
  | cons hd tl ih =>
    obtain ⟨k1, v1⟩ := hd
    simp only [List.map_cons, List.mem_cons] at h
    push_neg at h
    have h1 : ¬(k1 = k) := fun hh => h.1 hh.symm
    simp only [mLookup, if_neg h1]
    exact ih h.2

theorem mLookup_mDelete_self (s : Store) (k : String) (h : storeWF s) :
    mLookup (mDelete s k) k = none := by
  induction s with
  | nil => rfl
  | cons hd tl ih =>
    obtain ⟨k1, v1⟩ := hd
    unfold storeWF at h
    simp only [List.map_cons, List.nodup_cons] at h
    by_cases h1 : k1 = k
    · simp only [mDelete, if_pos h1]
      subst h1
      exact mLookup_none_of_notMem tl k1 h.1
    · simp only [mDelete, if_neg h1, mLookup, if_neg h1]
      exact ih h.2


theorem storeWF_applyOp (s : Store) (op : Op) (h : storeWF s) : storeWF (applyOp s op) := by
  cases op with
  | create input now id =>
    simp only [applyOp, TaskStore.create]
    rcases hpi : input.parentId with _ | pid <;> simp only [hpi]
    · exact storeWF_mSet s id _ h
    · rcases hp : mLookup s pid with _ | parent <;> simp only [hp]
      · exact storeWF_mSet s id _ h
      · exact storeWF_mSet _ id _ (storeWF_mSet s pid _ h)
  | update id u ex now =>
    cases ex with
    | false => exact h
    | true =>
      simp only [applyOp, TaskStore.update]
      rcases hl : mLookup s id with _ | task <;> simp only [hl]
      · exact h
      · exact storeWF_mSet s id _ h
  | complete id now =>
    simp only [applyOp, TaskStore.complete]
    rcases hl : mLookup s id with _ | task <;> simp only [hl]
    · exact h
    · exact storeWF_mSet s id _ h
  | defer id newDate now tm9 =>
    simp only [applyOp, TaskStore.defer]
    rcases hl : mLookup s id with _ | task <;> simp only [hl]
    · exact h
    · exact storeWF_mSet s id _ h
  | delete id ex now =>
    cases ex with
    | false => exact h
    | true =>
      simp only [applyOp, TaskStore.delete]
      rcases hl : mLookup s id with _ | task <;> simp only [hl]
      · exact h
      · rcases hpi : task.parentId with _ | pid <;> simp only [hpi]
        · exact storeWF_mDelete s id h
        · rcases hp : mLookup s pid with _ | parent <;> simp only [hp]
          · exact storeWF_mDelete s id h
          · exact storeWF_mDelete _ id (storeWF_mSet s pid _ h)

/-! ### Reduced equations for each operation (used repeatedly below) -/

theorem create_eq_no_parent (s : Store) (input : TaskInput) (now : Int) (id : String)
    (hpi : input.parentId = none) :
    TaskStore.create s input now id =
      (mSet s id (TaskStore.baseTaskOf input now id), TaskStore.baseTaskOf input now id) := by
  simp only [TaskStore.create, hpi]

theorem create_eq_dangling (s : Store) (input : TaskInput) (now : Int) (id pid : String)
    (hpi : input.parentId = some pid) (hp : mLookup s pid = none) :
    TaskStore.create s input now id =
      (mSet s id (TaskStore.baseTaskOf input now id), TaskStore.baseTaskOf input now id) := by
  simp only [TaskStore.create, hpi, hp]

theorem create_eq_parent (s : Store) (input : TaskInput) (now : Int) (id pid : String)
    (parent : Task) (hpi : input.parentId = some pid) (hp : mLookup s pid = some parent) :
    TaskStore.create s input now id =
      (mSet (mSet s pid (TaskStore.parentWithChild parent id now)) id
          (TaskStore.childTaskOf input now id parent),
        TaskStore.childTaskOf input now id parent) := by
  simp only [TaskStore.create, hpi, hp]

theorem update_eq_some (s : Store) (id : String) (u : TaskUpdate) (now : Int) (task : Task)
    (hl : mLookup s id = some task) :
    TaskStore.update s id u true now =
      .ok (mSet s id (TaskStore.updatedTaskOf task u now), TaskStore.updatedTaskOf task u now) := by
  simp only [TaskStore.update, hl]; rfl

theorem update_eq_missing (s : Store) (id : String) (u : TaskUpdate) (now : Int)
    (hl : mLookup s id = none) :
    TaskStore.update s id u true now = .error ("Task not found: " ++ id) := by
  simp only [TaskStore.update, hl]; rfl

theorem complete_eq_some (s : Store) (id : String) (now : Int) (task : Task)
    (hl : mLookup s id = some task) :
    TaskStore.complete s id now =
      .ok (mSet s id (TaskStore.completedTaskOf task now), TaskStore.completedTaskOf task now) := by
  simp only [TaskStore.complete, hl]

theorem complete_eq_missing (s : Store) (id : String) (now : Int)
    (hl : mLookup s id = none) :
    TaskStore.complete s id now = .error ("Task not found: " ++ id) := by
  simp only [TaskStore.complete, hl]

theorem defer_eq_some (s : Store) (id : String) (newDate : Option Int) (now tm9 : Int)
    (task : Task) (hl : mLookup s id = some task) :
    TaskStore.defer s id newDate now tm9 =
      .ok (mSet s id (TaskStore.deferredTaskOf task newDate now tm9),
        TaskStore.deferredTaskOf task newDate now tm9) := by
  simp only [TaskStore.defer, hl]

theorem defer_eq_missing (s : Store) (id : String) (newDate : Option Int) (now tm9 : Int)
    (hl : mLookup s id = none) :
    TaskStore.defer s id newDate now tm9 = .error ("Task not found: " ++ id) := by
  simp only [TaskStore.defer, hl]

theorem delete_eq_missing (s : Store) (id : String) (now : Int)
    (hl : mLookup s id = none) :
    TaskStore.delete s id true now = .error ("Task not found: " ++ id) := by
  simp only [TaskStore.delete, hl]; rfl

theorem delete_eq_no_parent (s : Store) (id : String) (now : Int) (task : Task)
    (hl : mLookup s id = some task) (hpi : task.parentId = none) :
    TaskStore.delete s id true now = .ok (mDelete s id) := by
  simp only [TaskStore.delete, hl, hpi]; rfl

theorem delete_eq_dangling (s : Store) (id pid : String) (now : Int) (task : Task)
    (hl : mLookup s id = some task) (hpi : task.parentId = some pid)
    (hp : mLookup s pid = none) :
    TaskStore.delete s id true now = .ok (mDelete s id) := by
  simp only [TaskStore.delete, hl, hpi, hp]; rfl

theorem delete_eq_parent (s : Store) (id pid : String) (now : Int) (task parent : Task)
    (hl : mLookup s id = some task) (hpi : task.parentId = some pid)
    (hp : mLookup s pid = some parent) :
    TaskStore.delete s id true now =
      .ok (mDelete (mSet s pid (TaskStore.parentWithoutChild parent id now)) id) := by
  simp only [TaskStore.delete, hl, hpi, hp]; rfl

/-- A single store operation never shortens the history of any task that
is present before and after it. -/
theorem applyOp_history_mono (s : Store) (op : Op) (hwf0 : storeWF s) (hwf : wfOp s op)
    (k : String) (t t' : Task) (ht : mLookup s k = some t)
    (ht' : mLookup (applyOp s op) k = some t') :
    t.history.length ≤ t'.history.length := by
  cases op with
  | create input now id =>
    unfold wfOp at hwf
    have hkid : k ≠ id := by
      intro hh; rw [hh, hwf] at ht; exact Option.noConfusion ht
    rcases hpi : input.parentId with _ | pid
    · rw [show applyOp s (.create input now id) = (TaskStore.create s input now id).1 from rfl,
        create_eq_no_parent s input now id hpi] at ht'
      rw [mLookup_mSet_ne s id _ k hkid, ht] at ht'
      cases ht'; exact Nat.le_refl _
    · rcases hp : mLookup s pid with _ | parent
      · rw [show applyOp s (.create input now id) = (TaskStore.create s input now id).1 from rfl,
          create_eq_dangling s input now id pid hpi hp] at ht'
        rw [mLookup_mSet_ne s id _ k hkid, ht] at ht'
        cases ht'; exact Nat.le_refl _
      · rw [show applyOp s (.create input now id) = (TaskStore.create s input now id).1 from rfl,
          create_eq_parent s input now id pid parent hpi hp] at ht'
        rw [mLookup_mSet_ne _ id _ k hkid] at ht'
        by_cases hkp : k = pid
        · subst hkp
          rw [mLookup_mSet_self] at ht'
          rw [hp] at ht
          cases ht; cases ht'
          simp [TaskStore.parentWithChild]
        · rw [mLookup_mSet_ne s pid _ k hkp, ht] at ht'
          cases ht'; exact Nat.le_refl _
  | update id u ex now =>
    cases ex with
    | false =>
      rw [show applyOp s (.update id u false now) = s from rfl, ht] at ht'
      cases ht'; exact Nat.le_refl _
    | true =>
      rcases hl : mLookup s id with _ | task
      · rw [show applyOp s (.update id u true now) =
            (match TaskStore.update s id u true now with
             | .ok r => r.1
             | .error _ => s) from rfl,
          update_eq_missing s id u now hl] at ht'
        rw [ht] at ht'
        cases ht'; exact Nat.le_refl _
      · rw [show applyOp s (.update id u true now) =
            (match TaskStore.update s id u true now with
             | .ok r => r.1
             | .error _ => s) from rfl,
          update_eq_some s id u now task hl] at ht'
        by_cases hkid : k = id
        · subst hkid
          rw [mLookup_mSet_self] at ht'
          rw [hl] at ht
          cases ht; cases ht'
          simp [TaskStore.updatedTaskOf]
        · rw [mLookup_mSet_ne s id _ k hkid, ht] at ht'
          cases ht'; exact Nat.le_refl _
  | complete id now =>
    rcases hl : mLookup s id with _ | task
    · rw [show applyOp s (.complete id now) =
          (match TaskStore.complete s id now with
           | .ok r => r.1
           | .error _ => s) from rfl,
        complete_eq_missing s id now hl] at ht'
      rw [ht] at ht'
      cases ht'; exact Nat.le_refl _
    · rw [show applyOp s (.complete id now) =
          (match TaskStore.complete s id now with
           | .ok r => r.1
           | .error _ => s) from rfl,
        complete_eq_some s id now task hl] at ht'
      by_cases hkid : k = id
      · subst hkid
        rw [mLookup_mSet_self] at ht'
        rw [hl] at ht
        cases ht; cases ht'
        simp [TaskStore.completedTaskOf]
      · rw [mLookup_mSet_ne s id _ k hkid, ht] at ht'
        cases ht'; exact Nat.le_refl _
  | defer id newDate now tm9 =>
    rcases hl : mLookup s id with _ | task
    · rw [show applyOp s (.defer id newDate now tm9) =
          (match TaskStore.defer s id newDate now tm9 with
           | .ok r => r.1
           | .error _ => s) from rfl,
        defer_eq_missing s id newDate now tm9 hl] at ht'
      rw [ht] at ht'
      cases ht'; exact Nat.le_refl _
    · rw [show applyOp s (.defer id newDate now tm9) =
          (match TaskStore.defer s id newDate now tm9 with
           | .ok r => r.1
           | .error _ => s) from rfl,
        defer_eq_some s id newDate now tm9 task hl] at ht'
      by_cases hkid : k = id
      · subst hkid
        rw [mLookup_mSet_self] at ht'
        rw [hl] at ht
        cases ht; cases ht'
        simp [TaskStore.deferredTaskOf]
      · rw [mLookup_mSet_ne s id _ k hkid, ht] at ht'
        cases ht'; exact Nat.le_refl _
  | delete id ex now =>
    cases ex with
    | false =>
      rw [show applyOp s (.delete id false now) = s from rfl, ht] at ht'
      cases ht'; exact Nat.le_refl _
    | true =>
      have happ : applyOp s (.delete id true now) =
          (match TaskStore.delete s id true now with
           | .ok r => r
           | .error _ => s) := rfl
      rcases hl : mLookup s id with _ | task
      · rw [happ, delete_eq_missing s id now hl, ht] at ht'
        cases ht'; exact Nat.le_refl _
      · by_cases hkid : k = id
        · subst hkid
          rcases hpi : task.parentId with _ | pid
          · rw [happ, delete_eq_no_parent s k now task hl hpi] at ht'
            rw [mLookup_mDelete_self s k hwf0] at ht'
            exact Option.noConfusion ht'
          · rcases hp : mLookup s pid with _ | parent
            · rw [happ, delete_eq_dangling s k pid now task hl hpi hp] at ht'
              rw [mLookup_mDelete_self s k hwf0] at ht'
              exact Option.noConfusion ht'
            · rw [happ, delete_eq_parent s k pid now task parent hl hpi hp] at ht'
              rw [mLookup_mDelete_self _ k (storeWF_mSet s pid _ hwf0)] at ht'
              exact Option.noConfusion ht'
        · rcases hpi : task.parentId with _ | pid
          · rw [happ, delete_eq_no_parent s id now task hl hpi] at ht'
            rw [mLookup_mDelete_ne _ id k hkid, ht] at ht'
            cases ht'; exact Nat.le_refl _
          · rcases hp : mLookup s pid with _ | parent
            · rw [happ, delete_eq_dangling s id pid now task hl hpi hp] at ht'
              rw [mLookup_mDelete_ne _ id k hkid, ht] at ht'
              cases ht'; exact Nat.le_refl _
            · rw [happ, delete_eq_parent s id pid now task parent hl hpi hp] at ht'
              rw [mLookup_mDelete_ne _ id k hkid] at ht'
              by_cases hkp : k = pid
              · subst hkp
                rw [mLookup_mSet_self] at ht'
                rw [hp] at ht
                cases ht; cases ht'
                simp [TaskStore.parentWithoutChild]
              · rw [mLookup_mSet_ne s pid _ k hkp, ht] at ht'
                cases ht'; exact Nat.le_refl _


/-- History length never decreases across a well-formed execution during
which the task stays in the store. -/
theorem applyOps_history_mono (ops : List Op) (s : Store) (k : String) (t t' : Task)
    (hwf0 : storeWF s) (hops : wfOps s ops)
    (hall : ∀ pre, List.IsPrefix pre ops → (mLookup (applyOps s pre) k).isSome)
    (ht : mLookup s k = some t) (ht' : mLookup (applyOps s ops) k = some t') :
    t.history.length ≤ t'.history.length := by
  induction ops generalizing s t with
  | nil =>
    rw [show applyOps s [] = s from rfl, ht] at ht'
    cases ht'; exact Nat.le_refl _
  | cons op rest ih =>
    have h1 : (mLookup (applyOp s op) k).isSome := by
      have hh := hall [op] ⟨rest, rfl⟩
      rw [show applyOps s [op] = applyOp s op from rfl] at hh
      exact hh
    obtain ⟨tm, htm⟩ := Option.isSome_iff_exists.mp h1
    have step := applyOp_history_mono s op hwf0 hops.1 k t tm ht htm
    have hall2 : ∀ pre, List.IsPrefix pre rest →
        (mLookup (applyOps (applyOp s op) pre) k).isSome := by
      intro pre hpre
      obtain ⟨w, hw⟩ := hpre
      have hh := hall (op :: pre) ⟨w, by rw [List.cons_append, hw]⟩
      rw [show applyOps s (op :: pre) = applyOps (applyOp s op) pre from rfl] at hh
      exact hh
    have ht'2 : mLookup (applyOps (applyOp s op) rest) k = some t' := by
      rw [show applyOps (applyOp s op) rest = applyOps s (op :: rest) from rfl]
      exact ht'
    exact Nat.le_trans step
      (ih (applyOp s op) tm (storeWF_applyOp s op hwf0) hops.2 hall2 htm ht'2)

/-- C3 (amended): `complete` and `defer` append exactly one history
entry; `update` with `explicit = true` appends one entry per patch field
that is present and differs from the current value (so possibly none);
and for every task, `history.length` is non-decreasing across any
well-formed operation sequence throughout which the task remains
stored. -/
theorem history_append_counts_and_monotone :
    (∀ (s : Store) (id : String) (now : Int) (task : Task), mLookup s id = some task →
      (TaskStore.complete s id now).map (fun r => r.2.history.length) =
        .ok (task.history.length + 1)) ∧
    (∀ (s : Store) (id : String) (newDate : Option Int) (now tm9 : Int) (task : Task),
      mLookup s id = some task →
      (TaskStore.defer s id newDate now tm9).map (fun r => r.2.history.length) =
        .ok (task.history.length + 1)) ∧
    (∀ (s : Store) (id : String) (u : TaskUpdate) (now : Int) (task : Task),
      mLookup s id = some task →
      (TaskStore.update s id u true now).map (fun r => r.2.history.length) =
        .ok (task.history.length + (TaskStore.diffEntries task u now).length)) ∧
    (∀ (ops : List Op) (s : Store) (k : String) (t t' : Task), storeWF s → wfOps s ops →
      (∀ pre, List.IsPrefix pre ops → (mLookup (applyOps s pre) k).isSome) →
      mLookup s k = some t → mLookup (applyOps s ops) k = some t' →
      t.history.length ≤ t'.history.length) := by
  refine ⟨?_, ?_, ?_, ?_⟩
  · intro s id now task hl
    rw [complete_eq_some s id now task hl]
    simp [Except.map, TaskStore.completedTaskOf]
  · intro s id newDate now tm9 task hl
    rw [defer_eq_some s id newDate now tm9 task hl]
    simp [Except.map, TaskStore.deferredTaskOf]
  · intro s id u now task hl
    rw [update_eq_some s id u now task hl]
    simp [Except.map, TaskStore.updatedTaskOf]
  · intro ops s k t t' hwf0 hops hall ht ht'
    exact applyOps_history_mono ops s k t t' hwf0 hops hall ht ht'

/-- Witness for C3 (amended): completing a concretely stored task takes
its history from one entry to two. -/
theorem history_append_counts_witness :
    (TaskStore.complete [("a", sampleTask "a" 0 none .medium)] "a" 5).map
      (fun r => r.2.history.length) = .ok 2 := by
  have h := history_append_counts_and_monotone.1 [("a", sampleTask "a" 0 none .medium)] "a" 5
    (sampleTask "a" 0 none .medium) (by simp [mLookup])
  simpa [sampleTask] using h

/-- Counterexample to C3 as stated: an `update` with `explicit = true`
and an empty patch succeeds yet appends no history entry (the stored
task's history stays at one entry). -/
theorem update_empty_patch_appends_nothing :
    (TaskStore.update [("a", sampleTask "a" 0 none .medium)] "a" TaskUpdate.empty true 5).map
      (fun r => r.2.history.length) = .ok 1 ∧
    (sampleTask "a" 0 none .medium).history.length = 1 := by
  constructor
  · rw [update_eq_some _ "a" TaskUpdate.empty 5 (sampleTask "a" 0 none .medium) (by simp [mLookup])]
    simp [Except.map, TaskStore.updatedTaskOf, TaskStore.diffEntries, TaskUpdate.empty, sampleTask]
  · rfl


/-! ### C1: deadlines within 24 hours and the priority level -/

theorem jsRound_intDiv (a b : Int) (hb : 0 < b) :
    jsRound ((a : ℚ) / (b : ℚ)) = (2 * a + b) / (2 * b) := by
  unfold jsRound
  have hb0 : (b : ℚ) ≠ 0 := ne_of_gt (by exact_mod_cast hb)
  have h1 : (a : ℚ) / (b : ℚ) + 1 / 2 = ((2 * a + b : Int) : ℚ) / ((2 * b : Int) : ℚ) := by
    push_cast
    field_simp
    ring
  rw [h1]
  have hb2 : ((2 * b : Int) : ℚ) = (((2 * b).toNat : Nat) : ℚ) := by
    have h3 : ((2 * b).toNat : Int) = 2 * b := Int.toNat_of_nonneg (by omega)
    exact_mod_cast h3.symm
  rw [hb2, Rat.floor_intCast_div_natCast]
  rw [Int.toNat_of_nonneg (by omega)]

theorem jsRound_ge (c : Int) (q : ℚ) (h : (c : ℚ) ≤ q) : c ≤ jsRound q := by
  unfold jsRound
  exact Int.le_floor.mpr (by linarith)

theorem deadlineFactor_within24 (task : Task) (now dl : Int)
    (hdl : task.deadline = some dl) (hfuture : now < dl)
    (hwithin : dl - now < 24 * 3600000) :
    calculateDeadlineFactor task now = ⟨"deadline", 50, 100, "Due within 24 hours"⟩ := by
  unfold calculateDeadlineFactor
  rw [hdl]
  have hpos : (0 : ℚ) < (1000 * 60 * 60 : ℚ) := by norm_num
  have h1 : ¬(((dl - now : Int) : ℚ) / (1000 * 60 * 60) ≤ 0) := by
    push_neg
    apply div_pos ?_ hpos
    exact_mod_cast Int.sub_pos.mpr hfuture
  have h2 : ((dl - now : Int) : ℚ) / (1000 * 60 * 60) ≤ 24 := by
    rw [div_le_iff₀ hpos]
    have hle : ((dl - now : Int) : ℚ) ≤ 86400000 := by
      exact_mod_cast (by omega : dl - now ≤ 86400000)
    push_cast at hle
    norm_num
    linarith
  simp only [h1, h2, if_true, if_false, ite_true, ite_false]

theorem ageFactor_bounds (task : Task) (now : Int) (hage : task.createdAt ≤ now) :
    30 ≤ (calculateAgeFactor task now).value ∧ (calculateAgeFactor task now).value ≤ 100 := by
  unfold calculateAgeFactor
  simp only []
  constructor
  · refine le_min (by norm_num) (jsRound_ge 30 _ ?_)
    have hx : (0 : ℚ) ≤ ((now - task.createdAt : Int) : ℚ) / (1000 * 60 * 60 * 24) := by
      apply div_nonneg ?_ (by norm_num)
      exact_mod_cast Int.sub_nonneg.mpr hage
    push_cast at hx ⊢
    nlinarith
  · exact min_le_left _ _

theorem hierarchyFactor_bounds (task : Task) :
    40 ≤ (calculateHierarchyFactor task).value ∧ (calculateHierarchyFactor task).value ≤ 70 := by
  unfold calculateHierarchyFactor
  split_ifs <;> simp

theorem jsRound_int (n : Int) : jsRound ((n : Int) : ℚ) = n := by
  unfold jsRound
  rw [Int.floor_eq_iff]
  refine ⟨by linarith, ?_⟩
  norm_num

/-- With a deadline due within 24 hours, the level is determined by the
weighted average with deadline factor 100. -/
theorem calculatePriority_level_24h (task : Task) (now dl : Int)
    (hdl : task.deadline = some dl) (hfuture : now < dl)
    (hwithin : dl - now < 24 * 3600000) :
    (calculatePriority task now).level =
      scoreToLevel ((2 * (100 * 50 + priorityValue task.priority * 30 +
        (calculateAgeFactor task now).value * 10 +
        (calculateHierarchyFactor task).value * 10) + 100) / 200) := by
  have hdf := deadlineFactor_within24 task now dl hdl hfuture hwithin
  have hh2 : (calculateHierarchyFactor task).weight = 10 := by
    unfold calculateHierarchyFactor
    split_ifs <;> rfl
  have hlevel : (calculatePriority task now).level =
      scoreToLevel (jsRound (((100 * 50 + priorityValue task.priority * 30 +
        (calculateAgeFactor task now).value * 10 +
        (calculateHierarchyFactor task).value * 10 : Int) : ℚ) /
        ((50 + 30 + 10 + 10 : Int) : ℚ))) := by
    unfold calculatePriority
    rw [hdf]
    simp only []
    rw [show (calculateExistingPriorityFactor task).value = priorityValue task.priority from rfl,
      show (calculateExistingPriorityFactor task).weight = 30 from rfl,
      show (calculateAgeFactor task now).weight = 10 from rfl, hh2]
  rw [hlevel]
  rw [show (50 + 30 + 10 + 10 : Int) = (100 : Int) from by norm_num,
    jsRound_intDiv _ 100 (by norm_num)]
  norm_num

/-- C1 (amended): a deadline strictly within 24 hours (and in the future)
forces the deadline factor to 100, and then the level is never `low`; it
is `high` whenever the stored priority is `high` or `medium`, but a
fresh, standalone, low-priority task scores 63 and classifies `medium`. -/
theorem deadline24h_level (task : Task) (now dl : Int)
    (hdl : task.deadline = some dl)
    (hfuture : now < dl)
    (hwithin : dl - now < 24 * 3600000)
    (hage : task.createdAt ≤ now) :
    (calculatePriority task now).level ≠ .low ∧
    ((task.priority = .high ∨ task.priority = .medium) →
      (calculatePriority task now).level = .high) := by
  have hav := ageFactor_bounds task now hage
  have hhv := hierarchyFactor_bounds task
  rw [calculatePriority_level_24h task now dl hdl hfuture hwithin]
  have hpv : 20 ≤ priorityValue task.priority ∧ priorityValue task.priority ≤ 100 := by
    cases task.priority <;> simp [priorityValue]
  constructor
  · unfold scoreToLevel
    split_ifs <;> simp_all
    omega
  · intro hp
    have hpv50 : 50 ≤ priorityValue task.priority := by
      rcases hp with hp | hp <;> rw [hp] <;> simp [priorityValue]
    unfold scoreToLevel
    split_ifs with h1 h2 <;> first | rfl | omega

/-- Witness for C1 (amended) at a concrete medium-priority task due in 12
hours: the level is high. -/
theorem deadline24h_level_witness :
    (calculatePriority (sampleTask "y" 0 (some 43200000) .medium) 0).level = .high :=
  (deadline24h_level (sampleTask "y" 0 (some 43200000) .medium) 0 43200000 rfl
    (by norm_num) (by norm_num) (by simp [sampleTask])).2 (Or.inr rfl)

/-- Counterexample to C1 as stated: a fresh, standalone, low-priority
task due in 12 hours classifies `medium`, not `high` (score 63). -/
theorem deadline24h_low_priority_is_medium :
    (calculatePriority (sampleTask "x" 0 (some 43200000) .low) 0).level = .medium ∧
    (calculatePriority (sampleTask "x" 0 (some 43200000) .low) 0).level ≠ .high := by
  have hav : (calculateAgeFactor (sampleTask "x" 0 (some 43200000) .low) 0).value = 30 := by
    unfold calculateAgeFactor sampleTask
    simp only []
    norm_num
    rw [show (30 : ℚ) = ((30 : Int) : ℚ) from by norm_num, jsRound_int]
    decide
  have hhv : (calculateHierarchyFactor (sampleTask "x" 0 (some 43200000) .low)).value = 40 := by
    unfold calculateHierarchyFactor sampleTask
    simp
  have hl := calculatePriority_level_24h (sampleTask "x" 0 (some 43200000) .low) 0 43200000
    rfl (by norm_num) (by norm_num)
  rw [hav, hhv] at hl
  rw [hl]
  constructor <;> decide


/-! ### C6: collaborator failures are absorbed by `atomize` -/

/-- C6: for every task and every failure of the external generation call,
`atomize` returns the deterministic single-task fallback: one micro-task
wrapping the original task, no dependencies, parallel groups `[[0]]`, and
an MVP suggestion present exactly when the task has a deadline. -/
theorem atomize_absorbs_failure (task : Task) (e : Unit) :
    atomize task (.error e) = createSingleTaskResult task ∧
    (createSingleTaskResult task).microTasks.length = 1 ∧
    (createSingleTaskResult task).dependencies = [] ∧
    (createSingleTaskResult task).parallelGroups = [[0]] ∧
    ((createSingleTaskResult task).mvpSuggestion.isSome ↔ task.deadline.isSome) := by
  refine ⟨?_, rfl, rfl, rfl, ?_⟩
  · unfold atomize
    split_ifs <;> rfl
  · unfold createSingleTaskResult
    simp only []
    cases task.deadline <;> simp

/-! ### C7: field-by-field defense of the structured response -/

/-- C7 (amended): `processLLMResponse` never rejects a decomposition; it
keeps every suggested micro-task, clamps every duration into [15, 60]
(missing or zero duration defaults to 30, but a NEGATIVE duration clamps
to 15, not 30), and a missing dependency list becomes the empty list with
the task marked parallelizable. -/
theorem processLLMResponse_field_defaults (resp : AtomizationLLMResponse) (task : Task)
    (i : Nat) (mt : LLMMicroTask) (hmt : resp.microTasks[i]? = some mt) :
    (processLLMResponse resp task).microTasks.length = resp.microTasks.length ∧
    ∃ mt', (processLLMResponse resp task).microTasks[i]? = some mt' ∧
      (15 ≤ mt'.estimatedMinutes ∧ mt'.estimatedMinutes ≤ 60) ∧
      ((mt.estimatedMinutes = none ∨ mt.estimatedMinutes = some 0) →
        mt'.estimatedMinutes = 30) ∧
      (∀ v, mt.estimatedMinutes = some v → v < 0 → mt'.estimatedMinutes = 15) ∧
      (mt.dependsOn = none → mt'.dependsOn = [] ∧ mt'.isParallelizable = true) := by
  constructor
  · unfold processLLMResponse
    simp
  · unfold processLLMResponse
    simp only [List.getElem?_map, hmt, Option.map_some]
    refine ⟨_, rfl, ?_, ?_, ?_, ?_⟩
    · dsimp only
      rcases hem : mt.estimatedMinutes with _ | v <;> simp only [hem] <;>
        unfold clampTimeEstimate
      · omega
      · split_ifs <;> omega
    · intro h
      dsimp only
      rcases h with h | h <;> simp only [h] <;> rfl
    · intro v hv hneg
      dsimp only
      simp only [hv]
      have hvz : ¬(v = 0) := by omega
      simp only [if_neg hvz]
      unfold clampTimeEstimate
      omega
    · intro h
      dsimp only
      simp [h]

/-- Witness for C7 (amended) at a concrete response whose only micro-task
has a negative duration and no dependency list. -/
theorem processLLMResponse_field_defaults_witness :
    (processLLMResponse ⟨[⟨"Draft report", none, some (-5), none⟩], none⟩
        (sampleTask "t" 0 none .medium)).microTasks.length = 1 ∧
    ∃ mt', (processLLMResponse ⟨[⟨"Draft report", none, some (-5), none⟩], none⟩
        (sampleTask "t" 0 none .medium)).microTasks[0]? = some mt' ∧
      (15 ≤ mt'.estimatedMinutes ∧ mt'.estimatedMinutes ≤ 60) ∧
      (((⟨"Draft report", none, some (-5), none⟩ : LLMMicroTask).estimatedMinutes = none ∨
        (⟨"Draft report", none, some (-5), none⟩ : LLMMicroTask).estimatedMinutes = some 0) →
        mt'.estimatedMinutes = 30) ∧
      (∀ v, (⟨"Draft report", none, some (-5), none⟩ : LLMMicroTask).estimatedMinutes = some v →
        v < 0 → mt'.estimatedMinutes = 15) ∧
      ((⟨"Draft report", none, some (-5), none⟩ : LLMMicroTask).dependsOn = none →
        mt'.dependsOn = [] ∧ mt'.isParallelizable = true) :=
  processLLMResponse_field_defaults ⟨[⟨"Draft report", none, some (-5), none⟩], none⟩
    (sampleTask "t" 0 none .medium) 0 ⟨"Draft report", none, some (-5), none⟩ rfl

/-- Counterexample to C7 as stated: a micro-task with a NEGATIVE
`estimatedMinutes` is assigned 15 minutes, not 30. -/
theorem negative_duration_clamps_to_15 :
    ((processLLMResponse ⟨[⟨"Draft report", none, some (-5), none⟩], none⟩
        (sampleTask "t" 0 none .medium)).microTasks.map
      (fun mt => mt.estimatedMinutes)) = [15] := by
  rfl


/-! ### C9: streak scenarios -/

/-- C9: with completions recorded on days D-2, D-1 and D and "today" = D,
the streak is 3; with a completion only on day D-3, the streak is 0.
(Days are epoch-day numbers of the completion timestamps; `completedTask`
records its `completed` history entry at the given instant.) -/
theorem streak_scenarios (d : Int) :
    calculateStreak [completedTask "a" ((d - 2) * 86400000),
      completedTask "b" ((d - 1) * 86400000), completedTask "c" (d * 86400000)] d = 3 ∧
    calculateStreak [completedTask "a" ((d - 3) * 86400000)] d = 0 := by
  have hc : ∀ k : Int, completionDay (k * 86400000) = k := by
    intro k; unfold completionDay; omega
  constructor
  · have h1 : getCompletionDates [completedTask "a" ((d - 2) * 86400000),
        completedTask "b" ((d - 1) * 86400000), completedTask "c" (d * 86400000)] =
        [d - 2, d - 1, d] := by
      unfold getCompletionDates completedTask sampleTask
      simp [List.find?, hc]
      omega
    have h2 : sortDatesDesc [d - 2, d - 1, d] = [d, d - 1, d - 2] := by
      unfold sortDatesDesc
      simp only [List.insertionSort, List.orderedInsert]
      rw [if_neg (by omega : ¬(d ≤ d - 1))]
      simp only [List.orderedInsert]
      rw [if_neg (by omega : ¬(d ≤ d - 2))]
      rw [if_neg (by omega : ¬(d - 1 ≤ d - 2))]
    unfold calculateStreak
    rw [h1]
    simp only [List.isEmpty, h2]
    rw [if_neg (by simp : ¬(d ≠ d ∧ d ≠ d - 1))]
    norm_num
    rw [streakLoop, if_pos rfl]
    rw [streakLoop, if_pos rfl]
    rw [streakLoop, if_pos (by omega : d - 2 = d - 1 - 1)]
    rw [streakLoop]
  · have h1 : getCompletionDates [completedTask "a" ((d - 3) * 86400000)] = [d - 3] := by
      unfold getCompletionDates completedTask sampleTask
      simp [List.find?, hc]
    have h2 : sortDatesDesc [d - 3] = [d - 3] := by
      unfold sortDatesDesc
      simp [List.insertionSort, List.orderedInsert]
    unfold calculateStreak
    rw [h1]
    simp only [List.isEmpty, h2]
    rw [if_pos (by omega : d - 3 ≠ d ∧ d - 3 ≠ d - 1)]
    norm_num


/-! ### C4: the order produced by `prioritizeTasks` -/

theorem taskLe_imp_codeLe (a b : Task) (h : taskLe a b) : codeLe a b := by
  unfold taskLe cmpTasks at h
  unfold codeLe deadlineLtSpec deadlineEqSpec
  rcases ha : a.deadline with _ | da <;> rcases hb : b.deadline with _ | db <;>
    simp only [ha, hb] at * <;> split_ifs at * <;> simp_all <;> omega

theorem taskLe_of_tie (a b : Task) (h : cmpTasks a b = 0) : taskLe a b := by
  unfold taskLe
  omega

/-- C4 (amended): `prioritizeTasks` returns a permutation of its input,
sorted by priority rank (high before medium before low), then by deadline
(present before absent, earlier instants first); creation time breaks
ties only between two tasks that both lack deadlines, while tasks with
equal deadlines (and tasks tying on every key) keep their input order —
the sort is stable. -/
theorem prioritizeTasks_spec (tasks : List Task) :
    (prioritizeTasks tasks).Perm tasks ∧
    (prioritizeTasks tasks).Pairwise codeLe ∧
    (∀ a b, cmpTasks a b = 0 → List.Sublist [a, b] tasks →
      List.Sublist [a, b] (prioritizeTasks tasks)) := by
  refine ⟨List.perm_insertionSort taskLe tasks, ?_, ?_⟩
  · have hs := List.sorted_insertionSort taskLe tasks
    exact List.Pairwise.imp (fun hab => taskLe_imp_codeLe _ _ hab) hs
  · intro a b htie hsub
    exact List.pair_sublist_insertionSort (taskLe_of_tie a b htie) hsub

/-- Witness for C4 (amended) on a concrete two-task list: the high-
priority task moves in front of the medium one. -/
theorem prioritizeTasks_spec_witness :
    (prioritizeTasks [sampleTask "m" 0 none .medium, sampleTask "h" 1 none .high]).Perm
      [sampleTask "m" 0 none .medium, sampleTask "h" 1 none .high] ∧
    (prioritizeTasks [sampleTask "m" 0 none .medium, sampleTask "h" 1 none .high]).Pairwise codeLe :=
  ⟨(prioritizeTasks_spec [sampleTask "m" 0 none .medium, sampleTask "h" 1 none .high]).1,
    (prioritizeTasks_spec [sampleTask "m" 0 none .medium, sampleTask "h" 1 none .high]).2.1⟩

/-- Counterexample to C4 as stated: two medium tasks with the SAME
deadline stay in input order even though the second was created earlier,
so "among ties, earlier creation time comes first" fails. -/
theorem equal_deadlines_ignore_creation_time :
    prioritizeTasks [sampleTask "t1" 100 (some 1000) .medium,
        sampleTask "t2" 50 (some 1000) .medium] =
      [sampleTask "t1" 100 (some 1000) .medium, sampleTask "t2" 50 (some 1000) .medium] ∧
    ¬ (prioritizeTasks [sampleTask "t1" 100 (some 1000) .medium,
        sampleTask "t2" 50 (some 1000) .medium]).Pairwise claimLe := by
  constructor
  · decide
  · decide


/-! ### C5: `topologicalSort` -/

/-! ### getD/set helper lemmas -/

theorem getD_set_self (l : List Int) (i : Nat) (x : Int) (h : i < l.length) :
    (l.set i x).getD i 0 = x := by
  induction l generalizing i with
  | nil => simp at h
  | cons a l ih =>
    cases i with
    | zero => simp [List.set, List.getD]
    | succ j =>
      simp only [List.set, List.length_cons] at *
      simpa [List.getD] using ih j (by omega)

theorem getD_set_other (l : List Int) (i j : Nat) (x : Int) (h : j ≠ i) :
    (l.set i x).getD j 0 = l.getD j 0 := by
  induction l generalizing i j with
  | nil => simp [List.set]
  | cons a l ih =>
    cases i with
    | zero =>
      cases j with
      | zero => omega
      | succ k => simp [List.set, List.getD]
    | succ i' =>
      cases j with
      | zero => simp [List.set, List.getD]
      | succ k => simpa [List.set, List.getD] using ih i' k (by omega)

theorem length_set_eq (l : List Int) (i : Nat) (x : Int) : (l.set i x).length = l.length :=
  List.length_set l i x

/-- Specification of the neighbor-processing fold: every neighbor's
in-degree drops by its occurrence count; the queue grows (at its end) by
exactly those nodes whose count reaches their full in-degree. -/
theorem processNeighbors_spec (nbrs : List Nat) (inDeg : List Int) (queue : List Nat)
    (hc : ∀ v ∈ nbrs, (nbrs.count v : Int) ≤ inDeg.getD v 0) :
    (processNeighbors nbrs inDeg queue).1.length = inDeg.length ∧
    (∀ v, (processNeighbors nbrs inDeg queue).1.getD v 0 =
      inDeg.getD v 0 - (nbrs.count v : Int)) ∧
    ∃ zs, (processNeighbors nbrs inDeg queue).2 = queue ++ zs ∧ zs.Nodup ∧
      (∀ v, v ∈ zs ↔ (v ∈ nbrs ∧ inDeg.getD v 0 = (nbrs.count v : Int))) := by
  induction nbrs generalizing inDeg queue with
  | nil =>
    refine ⟨rfl, ?_, [], by simp [processNeighbors], by simp, by simp⟩
    intro v
    simp [processNeighbors]
  | cons nb rest ih =>
    have hstep : processNeighbors (nb :: rest) inDeg queue =
        processNeighbors rest (inDeg.set nb (inDeg.getD nb 0 - 1))
          (if inDeg.getD nb 0 - 1 = 0 then queue ++ [nb] else queue) := by
      unfold processNeighbors
      simp only [List.foldl_cons]
      split_ifs with h <;> simp [h]
    set D := inDeg.getD nb 0 with hD
    have hcnb : ((nb :: rest).count nb : Int) ≤ D := hc nb (by simp)
    have hcnt1 : (nb :: rest).count nb = rest.count nb + 1 := by
      simp [List.count_cons]
    have hD1 : (rest.count nb : Int) + 1 ≤ D := by
      rw [hcnt1] at hcnb; push_cast at hcnb; linarith
    have hnb_lt : nb < inDeg.length := by
      by_contra hge
      have : inDeg.getD nb 0 = 0 := List.getD_eq_default _ _ (by omega)
      rw [← hD] at this
      omega
    have hset_self : (inDeg.set nb (D - 1)).getD nb 0 = D - 1 :=
      getD_set_self inDeg nb (D - 1) hnb_lt
    have hset_other : ∀ v, v ≠ nb → (inDeg.set nb (D - 1)).getD v 0 = inDeg.getD v 0 :=
      fun v hv => getD_set_other inDeg nb v (D - 1) hv
    have hc' : ∀ v ∈ rest, (rest.count v : Int) ≤ (inDeg.set nb (D - 1)).getD v 0 := by
      intro v hv
      by_cases hveq : v = nb
      · subst hveq; rw [hset_self]; omega
      · rw [hset_other v hveq]
        have h1 := hc v (by simp [hv])
        have h2 : (nb :: rest).count v = rest.count v := by
          simp [List.count_cons, hveq]
        rw [h2] at h1; exact h1
    obtain ⟨ihlen, ihval, zs1, ihq, ihnd, ihmem⟩ :=
      ih (inDeg.set nb (D - 1)) (if D - 1 = 0 then queue ++ [nb] else queue) hc'
    rw [hstep]
    refine ⟨by rw [ihlen, length_set_eq], ?_, ?_⟩
    · intro v
      rw [ihval v]
      by_cases hveq : v = nb
      · subst hveq
        rw [hset_self, hcnt1]
        push_cast; ring
      · rw [hset_other v hveq]
        have h2 : (nb :: rest).count v = rest.count v := by
          simp [List.count_cons, hveq]
        rw [h2]
    · refine ⟨(if D - 1 = 0 then [nb] else []) ++ zs1, ?_, ?_, ?_⟩
      · rw [ihq]
        split_ifs <;> simp
      · rcases Nat.eq_zero_or_pos (rest.count nb) with hz | hp
        · have hnbr : nb ∉ rest := by
            rw [← List.count_eq_zero]; exact hz
          split_ifs with hDe
          · simp only [List.singleton_append, List.nodup_cons]
            refine ⟨fun hmem => ?_, ihnd⟩
            exact hnbr ((ihmem nb).1 hmem).1
          · simpa using ihnd
        · have hD2 : 2 ≤ D := by omega
          rw [if_neg (by omega)]
          simpa using ihnd
      · intro v
        by_cases hveq : v = nb
        · rw [hveq]
          rcases Nat.eq_zero_or_pos (rest.count nb) with hz | hp
          · have hnbr : nb ∉ rest := by
              rw [← List.count_eq_zero]; exact hz
            have hnz1 : nb ∉ zs1 := fun hmem => hnbr ((ihmem nb).1 hmem).1
            constructor
            · intro hmem
              rcases List.mem_append.1 hmem with h1 | h1
              · refine ⟨by simp, ?_⟩
                rw [hcnt1, hz]
                split_ifs at h1 with hDe
                · push_cast; omega
                · simp at h1
              · exact absurd h1 hnz1
            · intro ⟨_, hval⟩
              rw [hcnt1, hz] at hval
              push_cast at hval
              rw [if_pos (by omega)]
              simp
          · have hD2 : 2 ≤ D := by omega
            rw [if_neg (by omega), List.nil_append, ihmem nb, hset_self, hcnt1]
            constructor
            · intro ⟨h1, h2⟩
              refine ⟨by simp, ?_⟩
              push_cast
              omega
            · intro ⟨_, h2⟩
              push_cast at h2
              refine ⟨by rw [← List.count_pos_iff]; omega, by omega⟩
        · have h2 : (nb :: rest).count v = rest.count v := by
            simp [List.count_cons, hveq]
          have hnotin : v ∉ (if D - 1 = 0 then [nb] else ([] : List Nat)) := by
            split_ifs <;> simp [hveq]
          rw [List.mem_append, ihmem v, hset_other v hveq, h2]
          constructor
          · intro h3
            rcases h3 with h3 | ⟨h4, h5⟩
            · exact absurd h3 hnotin
            · exact ⟨by simp [h4], h5⟩
          · intro ⟨h4, h5⟩
            right
            refine ⟨?_, h5⟩
            rcases List.mem_cons.1 h4 with h6 | h6
            · exact absurd h6 hveq
            · exact h6

theorem countP_split (l : List (Nat × Nat)) (p q : Nat × Nat → Bool) :
    l.countP p = l.countP (fun a => p a && q a) + l.countP (fun a => p a && !q a) := by
  induction l with
  | nil => simp
  | cons a l ih =>
    simp only [List.countP_cons]
    cases hp : p a <;> cases hq : q a <;> simp [hp, hq] <;> omega

theorem count_adjOf (edges : List (Nat × Nat)) (node v : Nat) :
    (adjOf edges node).count v = edges.countP (fun e => decide (e.1 = node ∧ e.2 = v)) := by
  unfold adjOf
  induction edges with
  | nil => simp
  | cons e es ih =>
    by_cases h1 : e.1 = node
    · by_cases h2 : e.2 = v
      · simp [List.filter_cons, List.countP_cons, List.count_cons, h1, h2, ih]
      · simp [List.filter_cons, List.countP_cons, List.count_cons, h1, h2, ih]
    · simp [List.filter_cons, List.countP_cons, h1, ih]

/-- One iteration of the Kahn loop preserves the invariant. -/
theorem kahn_step (edges : List (Nat × Nat)) (n : Nat)
    (hedge : ∀ e ∈ edges, e.1 < n ∧ e.2 < n)
    (inDeg : List Int) (node : Nat) (rest result : List Nat)
    (inv : KahnInv edges n inDeg (node :: rest) result) :
    KahnInv edges n (processNeighbors (adjOf edges node) inDeg rest).1
      (processNeighbors (adjOf edges node) inDeg rest).2 (result ++ [node]) := by
  obtain ⟨hlen, hq, hr, hnq, hnr, hdisj, hdeg, hqz, hpend, hord⟩ := inv
  have hnode_lt : node < n := hq node (by simp)
  have hnode_nr : node ∉ result := hdisj node (by simp)
  have hnode_rest : node ∉ rest := (List.nodup_cons.1 hnq).1
  have hrest_nd : rest.Nodup := (List.nodup_cons.1 hnq).2
  have hnbrs_mem : ∀ v ∈ adjOf edges node, (node, v) ∈ edges := by
    intro v hv
    unfold adjOf at hv
    obtain ⟨e, he, hev⟩ := List.mem_map.1 hv
    have hf := List.mem_filter.1 he
    have h1 : e.1 = node := by simpa using hf.2
    have heq : e = (node, v) := by
      obtain ⟨a, b⟩ := e
      simp only at h1 hev
      rw [h1, hev]
    rw [← heq]
    exact hf.1
  have hnbrs_lt : ∀ v ∈ adjOf edges node, v < n := fun v hv => (hedge _ (hnbrs_mem v hv)).2
  have hdeg_node := hdeg node hnode_lt
  have hqz_node := hqz node (by simp)
  have hcnt_node : edges.countP (fun e => decide (e.2 = node ∧ e.1 ∉ result)) = 0 := by
    rw [hqz_node] at hdeg_node
    exact_mod_cast hdeg_node.symm
  have hsrc_node : ∀ e ∈ edges, e.2 = node → e.1 ∈ result := by
    intro e he h2
    have h3 := List.countP_eq_zero.1 hcnt_node e he
    simp only [decide_eq_true_eq, not_and, not_not] at h3
    exact h3 h2
  have hres_zero : ∀ v, v < n → v ∈ result → inDeg.getD v 0 = 0 := by
    intro v hvn hvr
    rw [hdeg v hvn]
    have hz : edges.countP (fun e => decide (e.2 = v ∧ e.1 ∉ result)) = 0 := by
      rw [List.countP_eq_zero]
      intro e he
      simp only [decide_eq_true_eq, not_and, not_not]
      intro h2
      have hsub := hord e he (by rw [h2]; exact hvr)
      exact hsub.subset (by simp)
    rw [hz]
    simp
  have hcount_eq : ∀ v, (adjOf edges node).count v
      = edges.countP (fun e => decide (e.1 = node ∧ e.2 = v)) := count_adjOf edges node
  have hc : ∀ v ∈ adjOf edges node, ((adjOf edges node).count v : Int) ≤ inDeg.getD v 0 := by
    intro v hv
    have hvn := hnbrs_lt v hv
    rw [hdeg v hvn, hcount_eq v]
    have hmono : edges.countP (fun e => decide (e.1 = node ∧ e.2 = v))
        ≤ edges.countP (fun e => decide (e.2 = v ∧ e.1 ∉ result)) := by
      apply List.countP_mono_left
      intro e he
      simp only [decide_eq_true_eq]
      intro h12
      exact ⟨h12.2, by rw [h12.1]; exact hnode_nr⟩
    exact_mod_cast hmono
  obtain ⟨slen, sval, zs, sq, snd, smem⟩ :=
    processNeighbors_spec (adjOf edges node) inDeg rest hc
  have hzs_nbrs : ∀ v ∈ zs, v ∈ adjOf edges node := fun v hv => ((smem v).1 hv).1
  have hzs_pos : ∀ v ∈ zs, (1 : Int) ≤ inDeg.getD v 0 := by
    intro v hv
    have h1 := (smem v).1 hv
    have h2 : 0 < (adjOf edges node).count v := List.count_pos_iff.2 h1.1
    rw [h1.2]
    exact_mod_cast h2
  refine ⟨?_, ?_, ?_, ?_, ?_, ?_, ?_, ?_, ?_, ?_⟩
  · rw [slen]; exact hlen
  · intro v hv
    rw [sq] at hv
    rcases List.mem_append.1 hv with h1 | h1
    · exact hq v (List.mem_cons_of_mem node h1)
    · exact hnbrs_lt v (hzs_nbrs v h1)
  · intro v hv
    rcases List.mem_append.1 hv with h1 | h1
    · exact hr v h1
    · rw [List.mem_singleton.1 h1]; exact hnode_lt
  · rw [sq]
    refine List.Nodup.append hrest_nd snd ?_
    rw [List.disjoint_left]
    intro a ha hazs
    have h0 : inDeg.getD a 0 = 0 := hqz a (List.mem_cons_of_mem node ha)
    have h1 := hzs_pos a hazs
    omega
  · refine List.Nodup.append hnr (List.nodup_singleton node) ?_
    rw [List.disjoint_left]
    intro a ha hamem
    rw [List.mem_singleton.1 hamem] at ha
    exact hnode_nr ha
  · intro v hv hvr'
    rw [sq] at hv
    rcases List.mem_append.1 hv with h1 | h1
    · rcases List.mem_append.1 hvr' with h2 | h2
      · exact hdisj v (List.mem_cons_of_mem node h1) h2
      · rw [List.mem_singleton.1 h2] at h1
        exact hnode_rest h1
    · have hpos := hzs_pos v h1
      rcases List.mem_append.1 hvr' with h2 | h2
      · have hvn : v < n := hnbrs_lt v (hzs_nbrs v h1)
        have := hres_zero v hvn h2
        omega
      · rw [List.mem_singleton.1 h2] at hpos
        omega
  · intro v hvn
    rw [sval v, hdeg v hvn, hcount_eq v]
    have hsplit := countP_split edges (fun e => decide (e.2 = v ∧ e.1 ∉ result))
      (fun e => decide (e.1 = node))
    have hA : edges.countP
        (fun e => decide (e.2 = v ∧ e.1 ∉ result) && decide (e.1 = node))
        = edges.countP (fun e => decide (e.1 = node ∧ e.2 = v)) := by
      apply List.countP_congr
      intro e he
      by_cases h1 : e.1 = node <;> by_cases h2 : e.2 = v <;>
        simp [h1, h2, hnode_nr]
    have hB : edges.countP
        (fun e => decide (e.2 = v ∧ e.1 ∉ result) && !decide (e.1 = node))
        = edges.countP (fun e => decide (e.2 = v ∧ e.1 ∉ result ++ [node])) := by
      apply List.countP_congr
      intro e he
      by_cases h1 : e.1 = node <;> by_cases h2 : e.2 = v <;>
        by_cases h3 : e.1 ∈ result <;>
        simp [h1, h2, h3, hnode_nr]
    rw [hA, hB] at hsplit
    omega
  · intro v hv
    rw [sq] at hv
    rw [sval v]
    rcases List.mem_append.1 hv with h1 | h1
    · have h0 : inDeg.getD v 0 = 0 := hqz v (List.mem_cons_of_mem node h1)
      have hcv : ((adjOf edges node).count v : Int) = 0 := by
        by_cases hm : v ∈ adjOf edges node
        · have hle := hc v hm
          rw [h0] at hle
          have hge : (0 : Int) ≤ ((adjOf edges node).count v : Int) := Int.natCast_nonneg _
          omega
        · rw [List.count_eq_zero.2 hm]
          simp
      omega
    · rw [((smem v).1 h1).2]
      ring
  · intro v hvn hvr' hvq'
    rw [sval v]
    have hvr : v ∉ result := fun h => hvr' (List.mem_append.2 (Or.inl h))
    have hvnode : v ≠ node := fun h => hvr' (List.mem_append.2 (Or.inr (by simp [h])))
    have hvrest : v ∉ rest := fun h => hvq' (by rw [sq]; exact List.mem_append.2 (Or.inl h))
    have hvzs : v ∉ zs := fun h => hvq' (by rw [sq]; exact List.mem_append.2 (Or.inr h))
    have hold : inDeg.getD v 0 ≠ 0 := hpend v hvn hvr (by simp [hvnode, hvrest])
    have hpos : 0 ≤ inDeg.getD v 0 := by
      rw [hdeg v hvn]
      exact Int.natCast_nonneg _
    intro hzero
    have hcnt : ((adjOf edges node).count v : Int) = inDeg.getD v 0 := by omega
    have hvmem : v ∈ adjOf edges node := by
      rw [← List.count_pos_iff]
      have h4 : (0 : Int) < ((adjOf edges node).count v : Int) := by omega
      exact_mod_cast h4
    exact hvzs ((smem v).2 ⟨hvmem, hcnt.symm⟩)
  · intro e he hmem
    rcases List.mem_append.1 hmem with h2 | h2
    · exact (hord e he h2).trans (List.sublist_append_left result [node])
    · have h3 : e.2 = node := List.mem_singleton.1 h2
      have h1 : e.1 ∈ result := hsrc_node e he h3
      have hsub : List.Sublist ([e.1] ++ [e.2]) (result ++ [node]) :=
        List.Sublist.append (List.singleton_sublist.2 h1) (by rw [h3])
      simpa using hsub

theorem nodup_lt_length_le (l : List Nat) (n : Nat) (hnd : l.Nodup)
    (hlt : ∀ v ∈ l, v < n) : l.length ≤ n := by
  have h1 : l.toFinset.card = l.length := List.toFinset_card_of_nodup hnd
  have h2 : l.toFinset ⊆ Finset.range n := by
    intro v hv
    rw [Finset.mem_range]
    exact hlt v (List.mem_toFinset.1 hv)
  have h3 := Finset.card_le_card h2
  rw [Finset.card_range] at h3
  omega

/-- Running the loop to completion from any invariant state with enough
fuel empties the queue while preserving the invariant. -/
theorem kahnLoop_inv (edges : List (Nat × Nat)) (n : Nat)
    (hedge : ∀ e ∈ edges, e.1 < n ∧ e.2 < n) :
    ∀ (fuel : Nat) (inDeg : List Int) (queue result : List Nat),
      KahnInv edges n inDeg queue result →
      n - result.length < fuel →
      ∃ inDegF, KahnInv edges n inDegF []
        (kahnLoop (adjOf edges) fuel inDeg queue result) := by
  intro fuel
  induction fuel with
  | zero => intro _ _ _ _ hlt; omega
  | succ f ihf =>
    intro inDeg queue result inv hlt
    cases queue with
    | nil => exact ⟨inDeg, inv⟩
    | cons node rest =>
      have step := kahn_step edges n hedge inDeg node rest result inv
      have hlen_bound : (result ++ [node]).length ≤ n := by
        apply nodup_lt_length_le _ _ step.hnr
        exact step.hr
      have hlen1 : (result ++ [node]).length = result.length + 1 := by simp
      have hfuel : n - (result ++ [node]).length < f := by omega
      have hred : kahnLoop (adjOf edges) (f + 1) inDeg (node :: rest) result =
          kahnLoop (adjOf edges) f (processNeighbors (adjOf edges node) inDeg rest).1
            (processNeighbors (adjOf edges node) inDeg rest).2 (result ++ [node]) := by
        rw [kahnLoop]
      rw [hred]
      exact ihf _ _ _ step hfuel

theorem getD_map_range (f : Nat → Int) (n v : Nat) (h : v < n) :
    ((List.range n).map f).getD v 0 = f v := by
  rw [List.getD_eq_getElem?_getD]
  rw [List.getElem?_map]
  rw [List.getElem?_range h]
  rfl

/-- The initial state satisfies the invariant. -/
theorem kahn_init (edges : List (Nat × Nat)) (n : Nat) :
    KahnInv edges n (initInDeg n edges) (initQueue n (initInDeg n edges)) [] := by
  have hval : ∀ v, v < n → (initInDeg n edges).getD v 0 =
      ((edges.filter (fun e => e.2 = v)).length : Int) := by
    intro v hv
    unfold initInDeg
    exact getD_map_range _ n v hv
  refine ⟨?_, ?_, ?_, ?_, ?_, ?_, ?_, ?_, ?_, ?_⟩
  · simp [initInDeg]
  · intro v hv
    unfold initQueue at hv
    have := List.mem_filter.1 hv
    exact List.mem_range.1 this.1
  · intro v hv; simp at hv
  · exact List.Nodup.filter _ (List.nodup_range n)
  · exact List.nodup_nil
  · intro v _ hv; simp at hv
  · intro v hv
    rw [hval v hv]
    norm_cast
    rw [List.countP_eq_length_filter]
    congr 1
    apply List.filter_congr
    intro e _
    simp
  · intro v hv
    unfold initQueue at hv
    have := List.mem_filter.1 hv
    simpa using this.2
  · intro v hv _ hq
    intro h0
    apply hq
    unfold initQueue
    rw [List.mem_filter]
    exact ⟨List.mem_range.2 hv, by simpa using h0⟩
  · intro e _ h2; simp at h2

theorem foldl_append_eq {α β : Type} (f : α → List β) :
    ∀ (l : List α) (acc : List β),
      l.foldl (fun a x => a ++ f x) acc = acc ++ l.flatMap f := by
  intro l
  induction l with
  | nil => intro acc; simp
  | cons x xs ih =>
    intro acc
    simp only [List.foldl_cons, List.flatMap_cons, ih, List.append_assoc]

/-- Every recorded edge has both endpoints below `n`. -/
theorem kahnEdges_lt (mts : List MicroTaskSuggestion) :
    ∀ e ∈ kahnEdges mts, e.1 < mts.length ∧ e.2 < mts.length := by
  intro e he
  unfold kahnEdges at he
  rw [foldl_append_eq] at he
  simp only [List.nil_append] at he
  obtain ⟨p, hp, hep⟩ := List.mem_flatMap.1 he
  obtain ⟨d, _, hd⟩ := List.mem_filterMap.1 hep
  match d with
  | none => simp at hd
  | some fromIndex =>
    simp only at hd
    split_ifs at hd with hg
    · have he2 : (fromIndex.toNat, p.1) = e := by
        simpa using hd
      have hp1 : p.1 < mts.length := List.fst_lt_of_mem_enum hp
      rw [← he2]
      refine ⟨?_, hp1⟩
      have := hg.2.1
      omega

/-- In a duplicate-free list, a two-element sublist means the first
element is indexed strictly before the second. -/
theorem pair_sublist_indexOf (u v : Nat) :
    ∀ (r : List Nat), r.Nodup → List.Sublist [u, v] r →
      r.indexOf u < r.indexOf v := by
  intro r
  induction r with
  | nil => intro _ h; cases h
  | cons a r' ih =>
    intro hnd h
    have hand := List.nodup_cons.1 hnd
    cases h with
    | cons _ h' =>
      have hu : u ∈ r' := h'.subset (by simp)
      have hv : v ∈ r' := h'.subset (by simp)
      have hua : a ≠ u := fun he => hand.1 (he ▸ hu)
      have hva : a ≠ v := fun he => hand.1 (he ▸ hv)
      rw [List.indexOf_cons_ne r' hua, List.indexOf_cons_ne r' hva]
      exact Nat.succ_lt_succ (ih hand.2 h')
    | cons₂ _ h' =>
      have hv : v ∈ r' := h'.subset (by simp)
      have hva : u ≠ v := fun he => hand.1 (he ▸ hv)
      rw [List.indexOf_cons_self, List.indexOf_cons_ne r' hva]
      exact Nat.succ_pos _

/-- Lift the edge order of an invariant-satisfying full result to paths. -/
theorem transGen_indexOf (edges : List (Nat × Nat)) (r : List Nat) (hnd : r.Nodup)
    (hordr : ∀ e ∈ edges, e.2 ∈ r → List.Sublist [e.1, e.2] r)
    (hall : ∀ e ∈ edges, e.2 ∈ r) :
    ∀ u v, Relation.TransGen (fun a b => (a, b) ∈ edges) u v →
      r.indexOf u < r.indexOf v := by
  intro u v h
  induction h with
  | single h1 =>
    exact pair_sublist_indexOf _ _ r hnd (hordr _ h1 (hall _ h1))
  | tail h1 h2 ih =>
    exact lt_trans ih (pair_sublist_indexOf _ _ r hnd (hordr _ h2 (hall _ h2)))

theorem full_mem (r : List Nat) (n : Nat) (hnd : r.Nodup) (hlt : ∀ v ∈ r, v < n)
    (hlen : r.length = n) : ∀ v, v < n → v ∈ r := by
  have h1 : r.toFinset.card = n := by rw [List.toFinset_card_of_nodup hnd, hlen]
  have h2 : r.toFinset ⊆ Finset.range n :=
    fun v hv => Finset.mem_range.2 (hlt v (List.mem_toFinset.1 hv))
  have h3 : r.toFinset = Finset.range n :=
    Finset.eq_of_subset_of_card_le h2 (by rw [h1, Finset.card_range])
  intro v hv
  have h4 : v ∈ r.toFinset := by rw [h3]; exact Finset.mem_range.2 hv
  exact List.mem_toFinset.1 h4

/-- An invariant-satisfying final state that failed to emit every node
exhibits a cycle among the recorded edges. -/
theorem incomplete_cycle (edges : List (Nat × Nat)) (n : Nat)
    (hedge : ∀ e ∈ edges, e.1 < n ∧ e.2 < n)
    (inDegF : List Int) (r : List Nat)
    (inv : KahnInv edges n inDegF [] r) (hlen : r.length ≠ n) :
    ∃ w, Relation.TransGen (fun a b => (a, b) ∈ edges) w w := by
  obtain ⟨hlenD, _, hr, _, hnr, _, hdeg, _, hpend, _⟩ := inv
  classical
  set M : Finset Nat := (Finset.range n).filter (fun v => v ∉ r) with hM
  have hsub : ∀ v, v < n → v ∉ r → v ∈ M :=
    fun v h1 h2 => Finset.mem_filter.2 ⟨Finset.mem_range.2 h1, by simpa using h2⟩
  have hex : ∃ v, v < n ∧ v ∉ r := by
    by_contra hno
    push_neg at hno
    have hsub2 : List.range n ⊆ r := fun v hv => hno v (List.mem_range.1 hv)
    have hsp := (List.nodup_range n).subperm hsub2
    have hle := hsp.length_le
    simp only [List.length_range] at hle
    have hle2 := nodup_lt_length_le r n hnr hr
    omega
  have hpredM : ∀ v ∈ M, ∃ u, u ∈ M ∧ (u, v) ∈ edges := by
    intro v hv
    obtain ⟨hv1, hv2⟩ := Finset.mem_filter.1 hv
    have hvn := Finset.mem_range.1 hv1
    have hvr : v ∉ r := by simpa using hv2
    have hne := hpend v hvn hvr (by simp)
    rw [hdeg v hvn] at hne
    have hpos : 0 < edges.countP (fun e => decide (e.2 = v ∧ e.1 ∉ r)) := by
      rcases Nat.eq_zero_or_pos (edges.countP (fun e => decide (e.2 = v ∧ e.1 ∉ r)))
        with h0 | h0
      · rw [h0] at hne; simp at hne
      · exact h0
    obtain ⟨e, he, hpe⟩ := List.countP_pos_iff.1 hpos
    simp only [decide_eq_true_eq] at hpe
    refine ⟨e.1, hsub e.1 (hedge e he).1 hpe.2, ?_⟩
    rw [← hpe.1, Prod.mk.eta]
    exact he
  set g : Nat → Nat :=
    fun v => if h : ∃ u, u ∈ M ∧ (u, v) ∈ edges then h.choose else 0 with hg
  have hgM : ∀ v ∈ M, g v ∈ M ∧ (g v, v) ∈ edges := by
    intro v hv
    have hex2 := hpredM v hv
    rw [hg]
    simp only
    rw [dif_pos hex2]
    exact hex2.choose_spec
  obtain ⟨v₀, hv₀1, hv₀2⟩ := hex
  have hv₀M : v₀ ∈ M := hsub v₀ hv₀1 hv₀2
  set x : Nat → Nat := fun k => g^[k] v₀ with hx
  have hxsucc : ∀ k, x (k + 1) = g (x k) := by
    intro k
    rw [hx]
    simp only
    exact Function.iterate_succ_apply' g k v₀
  have hxM : ∀ k, x k ∈ M := by
    intro k
    induction k with
    | zero => simpa [hx] using hv₀M
    | succ k ih =>
      rw [hxsucc k]
      exact (hgM _ ih).1
  have hedge_step : ∀ k, (x (k + 1), x k) ∈ edges := by
    intro k
    rw [hxsucc k]
    exact (hgM _ (hxM k)).2
  have hcard : M.card < (Finset.range (n + 1)).card := by
    rw [Finset.card_range]
    have h5 : M.card ≤ (Finset.range n).card := Finset.card_filter_le _ _
    rw [Finset.card_range] at h5
    omega
  obtain ⟨i, _, j, _, hij, hxx⟩ :=
    Finset.exists_ne_map_eq_of_card_lt_of_maps_to hcard (fun k _ => hxM k)
  have hchain : ∀ a k, Relation.TransGen (fun a b => (a, b) ∈ edges)
      (x (a + k + 1)) (x a) := by
    intro a k
    induction k with
    | zero => exact Relation.TransGen.single (hedge_step a)
    | succ k ih =>
      have heq : a + (k + 1) + 1 = (a + k + 1) + 1 := by omega
      rw [heq]
      exact Relation.TransGen.head (hedge_step (a + k + 1)) ih
  rcases Nat.lt_or_ge i j with hlt2 | hge
  · refine ⟨x i, ?_⟩
    have heq : j = i + (j - i - 1) + 1 := by omega
    have hc := hchain i (j - i - 1)
    rw [← heq] at hc
    rw [← hxx] at hc
    exact hc
  · have hlt2 : j < i := by omega
    refine ⟨x j, ?_⟩
    have heq : i = j + (i - j - 1) + 1 := by omega
    have hc := hchain j (i - j - 1)
    rw [← heq] at hc
    rw [hxx] at hc
    exact hc

/-- C5 (amended): provided no dependency parses to a negative index (in
which case the source throws a `TypeError` instead — see the
counterexample), `topologicalSort` never fails: when the recorded
dependency graph is acyclic it returns a permutation of `0..n-1` in
which every dependency appears before each of its dependents, and when
the graph has a cycle it returns the original index order `0..n-1`. -/
theorem topologicalSort_order (mts : List MicroTaskSuggestion)
    (hneg : hasNegDep mts = false) :
    (AcyclicDeps mts →
      ∃ r, topologicalSort mts = .ok r ∧ r.Perm (List.range mts.length) ∧
        ∀ e ∈ kahnEdges mts, List.Sublist [e.1, e.2] r) ∧
    (¬ AcyclicDeps mts → topologicalSort mts = .ok (List.range mts.length)) := by
  have hedge := kahnEdges_lt mts
  set n := mts.length with hn
  set edges := kahnEdges mts with hedges
  have inv0 := kahn_init edges n
  have hfuel : n - ([] : List Nat).length < n + 1 := by simp
  obtain ⟨inDegF, invF⟩ := kahnLoop_inv edges n hedge (n + 1) (initInDeg n edges)
    (initQueue n (initInDeg n edges)) [] inv0 hfuel
  set r := kahnLoop (adjOf edges) (n + 1) (initInDeg n edges)
    (initQueue n (initInDeg n edges)) [] with hr2
  have hts : topologicalSort mts =
      if r.length ≠ n then .ok (List.range n) else .ok r := by
    unfold topologicalSort
    rw [if_neg (by simp [hneg])]
  constructor
  · intro hacyc
    have hcomplete : r.length = n := by
      by_contra hne
      obtain ⟨w, hw⟩ := incomplete_cycle edges n hedge inDegF r invF hne
      exact hacyc w hw
    have hmemall : ∀ v, v < n → v ∈ r := full_mem r n invF.hnr invF.hr hcomplete
    refine ⟨r, ?_, ?_, ?_⟩
    · rw [hts, if_neg (by simp [hcomplete])]
    · have h1 : List.Subperm r (List.range n) :=
        invF.hnr.subperm (fun v hv => List.mem_range.2 (invF.hr v hv))
      have h2 : List.Subperm (List.range n) r :=
        (List.nodup_range n).subperm (fun v hv => hmemall v (List.mem_range.1 hv))
      exact h1.antisymm h2
    · intro e he
      exact invF.hord e he (hmemall e.2 (hedge e he).2)
  · intro hcyc
    unfold AcyclicDeps at hcyc
    push_neg at hcyc
    obtain ⟨w, hw⟩ := hcyc
    have hnlen : r.length ≠ n := by
      intro hlen
      have hmemall : ∀ v, v < n → v ∈ r := full_mem r n invF.hnr invF.hr hlen
      have hall : ∀ e ∈ edges, e.2 ∈ r := fun e he => hmemall e.2 (hedge e he).2
      have := transGen_indexOf edges r invF.hnr invF.hord hall w w hw
      omega
    rw [hts, if_pos hnlen]

/-- Counterexample to C5 as stated ("never throws"): a dependency that
parses to `-1` passes the `isNaN`/`< n`/self-reference guard, and
`adjList[-1].push` throws a `TypeError`. -/
theorem topologicalSort_negative_dep_throws :
    topologicalSort [{ title := "Review the draft"
                       description := none
                       estimatedMinutes := 30
                       dependsOn := [some (-1)]
                       isParallelizable := true }] = .error () := rfl

/-- Witness for C5 (amended) on a concrete acyclic two-task list: task 1
depends on task 0, and the sort emits an order placing 0 before 1. -/
theorem topologicalSort_order_witness :
    ∃ r, topologicalSort
        [{ title := "Draft the outline"
           description := none
           estimatedMinutes := 20
           dependsOn := []
           isParallelizable := true },
         { title := "Write the summary"
           description := none
           estimatedMinutes := 25
           dependsOn := [some 0]
           isParallelizable := false }] = .ok r ∧
      r.Perm (List.range 2) ∧
      ∀ e ∈ kahnEdges
        [{ title := "Draft the outline"
           description := none
           estimatedMinutes := 20
           dependsOn := []
           isParallelizable := true },
         { title := "Write the summary"
           description := none
           estimatedMinutes := 25
           dependsOn := [some 0]
           isParallelizable := false }], List.Sublist [e.1, e.2] r :=
  (topologicalSort_order _ (by decide)).1 (by
    intro v hv
    have hE : kahnEdges
        [{ title := "Draft the outline"
           description := none
           estimatedMinutes := 20
           dependsOn := []
           isParallelizable := true },
         { title := "Write the summary"
           description := none
           estimatedMinutes := 25
           dependsOn := [some 0]
           isParallelizable := false }] = [(0, 1)] := by decide
    have h2 : ∀ a b, Relation.TransGen (depEdge
        [{ title := "Draft the outline"
           description := none
           estimatedMinutes := 20
           dependsOn := []
           isParallelizable := true },
         { title := "Write the summary"
           description := none
           estimatedMinutes := 25
           dependsOn := [some 0]
           isParallelizable := false }]) a b → a = 0 ∧ b = 1 := by
      intro a b h
      induction h with
      | single h1 =>
        unfold depEdge at h1
        rw [hE] at h1
        simpa using h1
      | tail hab hbc ih =>
        unfold depEdge at hbc
        rw [hE] at hbc
        simp at hbc
        omega
    obtain ⟨ha, hb⟩ := h2 v v hv
    omega)

end Atomize
